import Mathlib

/-!
Verification of the tiny-expert pipeline core (chunker, retriever, embedder,
cost estimators, answer parsing, batch event streams) against its
natural-language specification.

The Python source is shallowly embedded:
pure functions become Lean functions on `Nat`/`Int`/`ℚ`/`String`/`List`;
the `while` loop of the chunker is given explicit fuel, with `none` meaning
the loop ran out of fuel (divergence); external services (the generative
model, the embedding model, the database) are abstracted as function
parameters; Python floats are modelled as rationals (`ℚ`).
-/

/-! ## Chunker (`pipeline/chunker.py`)

Python `str.split()` splits on runs of whitespace and drops empty pieces;
`str.strip()` removes leading and trailing whitespace.  Both are modelled
on `List Char`.  `Char.isWhitespace` covers space, tab, CR and LF, which is
the whitespace that occurs in chunker inputs.
-/

def isWs (c : Char) : Bool := c.isWhitespace

/-- One pass of Python `str.split()`: `acc` holds the characters of the
word currently being scanned, in reverse; whitespace closes the current
word (if any), other characters extend it. -/
def splitWsAcc : List Char → List Char → List (List Char)
  | [], acc => if acc.isEmpty then [] else [acc.reverse]
  | c :: cs, acc =>
    if isWs c then
      if acc.isEmpty then splitWsAcc cs []
      else acc.reverse :: splitWsAcc cs []
    else splitWsAcc cs (c :: acc)

/-- Model of Python `str.split()` on a character list: the list of
whitespace-separated words, empty pieces dropped. -/
def splitWs (cs : List Char) : List (List Char) := splitWsAcc cs []

/-- Drop trailing whitespace characters (the right half of `str.strip()`). -/
def dropTrailWs : List Char → List Char
  | [] => []
  | c :: cs =>
    let r := dropTrailWs cs
    if r.isEmpty ∧ isWs c then [] else c :: r

/-- Model of Python `str.strip()` on a character list. -/
def stripWs (cs : List Char) : List Char := dropTrailWs (cs.dropWhile isWs)

/-- Python `text.split()` lifted to `String`. -/
def pySplit (s : String) : List String := (splitWs s.data).map String.mk

/-- `estimate_tokens(text)`: `int(len(text.split()) * 0.75)`.  For `n` words,
`n * 0.75` is exact in binary floating point, so truncation equals `3*n/4`
in natural division. -/
def estimate_tokens (text : String) : Nat := (splitWs text.data).length * 3 / 4

/-- Python `f"{n:04d}"`: decimal digits of `n`, zero-padded on the left to a
minimum width of 4.  For `n < 10000` this is exactly the four decimal
digits; for larger `n` it is the plain decimal representation. -/
def format04 (n : Nat) : String :=
  if n < 10000 then
    String.mk [Nat.digitChar (n / 1000 % 10), Nat.digitChar (n / 100 % 10),
               Nat.digitChar (n / 10 % 10), Nat.digitChar (n % 10)]
  else Nat.repr n

/-- Chunk identifier `f"chunk-{source_id}-{chunk_index:04d}"`. -/
def mkId (source_id : String) (idx : Nat) : String :=
  "chunk-" ++ source_id ++ "-" ++ format04 idx

/-- Python `" ".join(words)` on words given as character lists. -/
def joinSpace : List (List Char) → List Char
  | [] => []
  | [w] => w
  | w :: ws => w ++ ' ' :: joinSpace ws

/-- An input section (a parsed `{"chapter":…, "section":…, "text":…}` dict;
absent chapter/section keys default to `""` via `.get`). -/
structure Sec where
  chapter : String := ""
  sec : String := ""
  text : String
deriving DecidableEq, Repr

/-- An output chunk dict of `chunk_sections`. -/
structure Chunk where
  id : String
  source_id : String
  chapter : String
  sec : String
  text : String
  token_count : Nat
  chunk_index : Nat
deriving DecidableEq, Repr

/-- The next window start of the chunker's sliding loop:
`start = end - overlap_words` where `end = min(start + target_words, n)`.
Natural subtraction truncates at 0; Python would go negative there, but that
regime is only reached when `overlap_words ≥ target_words`, where the loop
diverges either way (the start index never advances). -/
def windowStep (n tw ow s : Nat) : Nat := min (s + tw) n - ow

/-- The chunker's `while start < len(words)` loop, returning the list of
`(start, end)` word windows.  `fuel` bounds the number of iterations;
`none` models divergence (fuel exhausted). -/
def windowLoop (fuel n tw ow s : Nat) : Option (List (Nat × Nat)) :=
  match fuel with
  | 0 => none
  | f + 1 =>
    if s < n then
      let e := min (s + tw) n
      if n ≤ e then some [(s, e)]
      else
        match windowLoop f n tw ow (windowStep n tw ow s) with
        | some ws => some ((s, e) :: ws)
        | none => none
    else some []

/-- Build one chunk dict from its text characters. -/
def mkChunk (source_id chapter sec : String) (idx : Nat) (textData : List Char) : Chunk :=
  { id := mkId source_id idx
    source_id := source_id
    chapter := chapter
    sec := sec
    text := String.mk textData
    token_count := estimate_tokens (String.mk textData)
    chunk_index := idx }

/-- Chunks for the window list of one oversized section; `words[start:end]`
is `(words.drop start).take (end - start)`, joined with single spaces. -/
def windowChunks (words : List (List Char)) (source_id chapter sec : String)
    (idx : Nat) : List (Nat × Nat) → List Chunk
  | [] => []
  | (s, e) :: rest =>
    mkChunk source_id chapter sec idx (joinSpace ((words.drop s).take (e - s)))
      :: windowChunks words source_id chapter sec (idx + 1) rest

/-- Chunks of a single section, starting at running index `idx`:
strip the text, skip the section if empty, emit one chunk when the word
count fits in `tw`, otherwise slide the window loop. -/
def sectionChunks (source_id : String) (tw ow idx : Nat) (s : Sec) : Option (List Chunk) :=
  let stripped := stripWs s.text.data
  if stripped.isEmpty then some []
  else
    let words := splitWs stripped
    if words.length ≤ tw then
      some [mkChunk source_id s.chapter s.sec idx stripped]
    else
      match windowLoop (words.length + 1) words.length tw ow 0 with
      | some wins => some (windowChunks words source_id s.chapter s.sec idx wins)
      | none => none

/-- Fold over the sections, threading the running chunk index. -/
def chunkSecGo (source_id : String) (tw ow : Nat) (idx : Nat) : List Sec → Option (List Chunk)
  | [] => some []
  | s :: rest =>
    match sectionChunks source_id tw ow idx s with
    | none => none
    | some cs =>
      match chunkSecGo source_id tw ow (idx + cs.length) rest with
      | none => none
      | some more => some (cs ++ more)

/-- `chunk_sections(sections, source_id, target_tokens=1500, overlap_tokens=200)`.
`int(target_tokens / 0.75)` equals `4 * target_tokens / 3` in natural
division (0.75 is exact in binary floating point and the quotient's
truncation agrees for all realistic magnitudes), likewise for the overlap. -/
def chunk_sections (sections : List Sec) (source_id : String)
    (target_tokens : Nat := 1500) (overlap_tokens : Nat := 200) : Option (List Chunk) :=
  chunkSecGo source_id (4 * target_tokens / 3) (4 * overlap_tokens / 3) 0 sections

/-! ## Retriever (`pipeline/answer_gen.py`, `retrieve_relevant_chunks`)

The question embedding and `cosine_similarity(q_embedding, emb)` go through
`numpy` floats; they are abstracted as a score function `simFn` on the
chunk's embedding vector.  Every claim about retrieval holds for an
arbitrary score, which subsumes any concrete cosine values. -/

/-- A chunk row as seen by retrieval: its identifier and its optional
embedding (`chunk.get("embedding")`; a missing key or a null gives `none`). -/
structure RChunk where
  id : String
  embedding : Option (List ℚ)
deriving DecidableEq, Repr

/-- `original_chunk_ids and chunk["id"] in original_chunk_ids`: with a falsy
(`None`/empty) id list this is falsy; otherwise it is the membership test.
Both collapse to membership in a plain list (`None` behaves as `[]`). -/
def isOrigB (id : String) (original_chunk_ids : List String) : Bool :=
  id ∈ original_chunk_ids

/-- The `scored` list: one `(sim, is_original, chunk)` triple per chunk whose
embedding is present (`if not emb: continue` skips `None` and `[]`). -/
def scoredOf (simFn : List ℚ → ℚ) (all_chunks : List RChunk)
    (original_chunk_ids : List String) : List (ℚ × Bool × RChunk) :=
  all_chunks.filterMap fun c =>
    match c.embedding with
    | none => none
    | some v => if v.isEmpty then none else some (simFn v, isOrigB c.id original_chunk_ids, c)

/-- `scored.sort(key=lambda x: (x[1], x[0]), reverse=True)`: stable sort,
descending in the lexicographic key (is_original, sim) with False < True.
`x ≤ᵣ y` here means "x may come before y", i.e. key x ≥ key y. -/
def scoreLe (x y : ℚ × Bool × RChunk) : Bool :=
  (y.2.1 < x.2.1) || (x.2.1 = y.2.1 && y.1 ≤ x.1)

/-- Stable insertion: `x` (a later element) goes after every `y` that may
precede it (`le y x`), so equal keys keep their original order. -/
def insertStable (le : α → α → Bool) (x : α) : List α → List α
  | [] => [x]
  | y :: ys => if le y x then y :: insertStable le x ys else x :: y :: ys

/-- Stable sort by repeated insertion, left to right.  Python's `list.sort`
is stable, and all stable sorts under the same total preorder agree, so
this is extensionally the sort the source performs. -/
def sortStable (le : α → α → Bool) (l : List α) : List α :=
  l.foldl (fun acc x => insertStable le x acc) []

def sortScored (l : List (ℚ × Bool × RChunk)) : List (ℚ × Bool × RChunk) :=
  sortStable scoreLe l

/-- The first result loop: walk the sorted scored list and append every
original chunk not yet seen; returns the results and the seen-id set
(modelled as a list). -/
def addOrigs : List (ℚ × Bool × RChunk) → List RChunk → List String →
    List RChunk × List String
  | [], res, seen => (res, seen)
  | (_, o, c) :: rest, res, seen =>
    if o ∧ c.id ∉ seen then addOrigs rest (res ++ [c]) (c.id :: seen)
    else addOrigs rest res seen

/-- The second result loop: fill with unseen chunks until `top_k` results. -/
def fillTop : List (ℚ × Bool × RChunk) → List RChunk → List String → Nat → List RChunk
  | [], res, _, _ => res
  | (_, _, c) :: rest, res, seen, k =>
    if k ≤ res.length then res
    else if c.id ∉ seen then fillTop rest (res ++ [c]) (c.id :: seen) k
    else fillTop rest res seen k

/-- `retrieve_relevant_chunks(question_text, all_chunks, top_k=10,
original_chunk_ids=None)`; the question text only enters through the
abstracted score function. -/
def retrieve_relevant_chunks (simFn : List ℚ → ℚ) (all_chunks : List RChunk)
    (top_k : Nat := 10) (original_chunk_ids : List String := []) : List RChunk :=
  let sorted := sortScored (scoredOf simFn all_chunks original_chunk_ids)
  let p := addOrigs sorted [] []
  fillTop sorted p.1 p.2 top_k

/-! ## Embedder (`pipeline/embedder.py`, `embed_chunks`) -/

/-- A chunk row as seen by the embedder: its text and its optional
embedding slot. -/
structure EChunk where
  text : String
  embedding : Option (List ℚ)
deriving DecidableEq, Repr

/-- The assignment loop `for chunk, emb in zip(chunks, embeddings):
chunk["embedding"] = emb` (zip stops at the shorter sequence, leaving any
remaining chunks untouched). -/
def zipAssign : List EChunk → List (List ℚ) → List EChunk
  | c :: cs, e :: es => { c with embedding := some e } :: zipAssign cs es
  | cs, [] => cs
  | [], _ :: _ => []

/-- `embed_chunks(chunks)` with the embedding service abstracted as
`embedFn` (`embed_texts`, one vector per input text). -/
def embed_chunks (embedFn : List String → List (List ℚ)) (chunks : List EChunk) : List EChunk :=
  let texts := chunks.map (·.text)
  if texts.isEmpty then chunks
  else zipAssign chunks (embedFn texts)

/-! ## Cost estimators (`question_gen.estimate_batch_cost`,
`answer_gen.estimate_answer_cost`)

Python's `round(x, 4)` rounds half to even; on the values produced here the
argument is always an exact multiple of `1/10000`, so no tie or change
occurs.  Modelled on `ℚ`. -/

def pyRound4 (x : ℚ) : ℚ :=
  let y := x * 10000
  let f : ℤ := Int.floor y
  let n : ℤ :=
    if y - f < 1/2 then f
    else if (1:ℚ)/2 < y - f then f + 1
    else if f % 2 = 0 then f else f + 1
  (n : ℚ) / 10000

/-- The dict returned by `estimate_batch_cost`. -/
structure BatchEst where
  chunks : Nat
  estimated_input_tokens : Nat
  estimated_output_tokens : Nat
  estimated_cost_usd : ℚ
  estimated_time_seconds : Nat
deriving DecidableEq, Repr

/-- The dict returned by `estimate_answer_cost`. -/
structure AnswerEst where
  questions : Nat
  estimated_input_tokens : Nat
  estimated_output_tokens : Nat
  estimated_cost_usd : ℚ
  estimated_time_seconds : Nat
deriving DecidableEq, Repr

/-- `estimate_batch_cost(chunks)`: 1500 input and 2000 output tokens per
chunk at 3.0 / 15.0 dollars per million tokens. -/
def estimate_batch_cost (chunks : List Chunk) : BatchEst :=
  let n := chunks.length
  { chunks := n
    estimated_input_tokens := n * 1500
    estimated_output_tokens := n * 2000
    estimated_cost_usd :=
      pyRound4 ((n * 1500 * 3 : ℚ) / 1000000 + (n * 2000 * 15 : ℚ) / 1000000)
    estimated_time_seconds := n * 3 }

/-- `estimate_answer_cost(num_questions)`: 3000 input and 1000 output tokens
per question at the same rates. -/
def estimate_answer_cost (num_questions : Nat) : AnswerEst :=
  { questions := num_questions
    estimated_input_tokens := num_questions * 3000
    estimated_output_tokens := num_questions * 1000
    estimated_cost_usd :=
      pyRound4 ((num_questions * 3000 * 3 : ℚ) / 1000000
        + (num_questions * 1000 * 15 : ℚ) / 1000000)
    estimated_time_seconds := num_questions * 4 }

/-! ## Answer parsing (`answer_gen._parse_answer_json`, `generate_answer`)

`json.loads` is modelled by a fuelled recursive-descent parser over the
standard JSON grammar (plus the `NaN`/`Infinity` extras Python accepts);
numeric lexemes are kept as text since no claim depends on their value.
The two `re.sub` fence strippers and the `re.search(r'\x7b.*\x7d', …)`
extraction are modelled directly on character lists. -/

inductive JValue where
  | jnull
  | jbool (b : Bool)
  | jnum (lexeme : String)
  | jstr (s : String)
  | jarr (elems : List JValue)
  | jobj (fields : List (String × JValue))

/-- JSON insignificant whitespace. -/
def jWs (c : Char) : Bool := c = ' ' || c = '\t' || c = '\n' || c = '\r'

def skipJWs (cs : List Char) : List Char := cs.dropWhile jWs

def hexVal? (c : Char) : Option Nat :=
  if '0' ≤ c ∧ c ≤ '9' then some (c.toNat - '0'.toNat)
  else if 'a' ≤ c ∧ c ≤ 'f' then some (c.toNat - 'a'.toNat + 10)
  else if 'A' ≤ c ∧ c ≤ 'F' then some (c.toNat - 'A'.toNat + 10)
  else none

/-- Body of a JSON string after the opening quote: returns the decoded
characters and the remainder after the closing quote. -/
def parseJStr : List Char → Option (List Char × List Char)
  | [] => none
  | '"' :: cs => some ([], cs)
  | '\\' :: e :: cs1 =>
    let dec : Option Char :=
      if e = '"' then some '"'
      else if e = '\\' then some '\\'
      else if e = '/' then some '/'
      else if e = 'b' then some (Char.ofNat 8)
      else if e = 'f' then some (Char.ofNat 12)
      else if e = 'n' then some '\n'
      else if e = 'r' then some '\r'
      else if e = 't' then some '\t'
      else none
    match dec with
    | some d =>
      match parseJStr cs1 with
      | some p => some (d :: p.1, p.2)
      | none => none
    | none =>
      if e = 'u' then
        match cs1 with
        | h1 :: h2 :: h3 :: h4 :: cs2 =>
          match hexVal? h1, hexVal? h2, hexVal? h3, hexVal? h4 with
          | some a, some b, some c3, some d =>
            match parseJStr cs2 with
            | some p => some (Char.ofNat (((a * 16 + b) * 16 + c3) * 16 + d) :: p.1, p.2)
            | none => none
          | _, _, _, _ => none
        | _ => none
      else none
  | c :: cs =>
    if c.toNat < 32 then none
    else
      match parseJStr cs with
      | some p => some (c :: p.1, p.2)
      | none => none

/-- A JSON number lexeme: `-? (0 | [1-9][0-9]*) (. [0-9]+)? ([eE][+-]?[0-9]+)?`.
Returns the lexeme characters and the remainder. -/
def parseJNum (cs : List Char) : Option (List Char × List Char) :=
  let sign : List Char × List Char :=
    match cs with
    | '-' :: rest => (['-'], rest)
    | _ => ([], cs)
  match sign.2 with
  | [] => none
  | d :: rest =>
    if ¬ d.isDigit then none
    else
      let ip : List Char × List Char :=
        if d = '0' then (['0'], rest)
        else (sign.2.takeWhile Char.isDigit, sign.2.dropWhile Char.isDigit)
      let fp : Option (List Char × List Char) :=
        match ip.2 with
        | '.' :: fr =>
          let ds := fr.takeWhile Char.isDigit
          if ds.isEmpty then none else some ('.' :: ds, fr.dropWhile Char.isDigit)
        | _ => some ([], ip.2)
      match fp with
      | none => none
      | some f =>
        let ep : Option (List Char × List Char) :=
          match f.2 with
          | e :: er =>
            if e = 'e' ∨ e = 'E' then
              let sr : List Char × List Char :=
                match er with
                | s :: er' => if s = '+' ∨ s = '-' then ([s], er') else ([], er)
                | [] => ([], er)
              let ds := sr.2.takeWhile Char.isDigit
              if ds.isEmpty then none
              else some (e :: (sr.1 ++ ds), sr.2.dropWhile Char.isDigit)
            else some ([], f.2)
          | [] => some ([], f.2)
        match ep with
        | none => none
        | some ex => some (sign.1 ++ ip.1 ++ f.1 ++ ex.1, ex.2)

mutual

/-- One JSON value (fuelled); `none` is a parse failure. -/
def parseJVal : Nat → List Char → Option (JValue × List Char)
  | 0, _ => none
  | f + 1, cs =>
    match skipJWs cs with
    | [] => none
    | c :: rest =>
      if c = 'n' then
        if List.isPrefixOf ['u','l','l'] rest then some (JValue.jnull, rest.drop 3) else none
      else if c = 't' then
        if List.isPrefixOf ['r','u','e'] rest then some (JValue.jbool true, rest.drop 3) else none
      else if c = 'f' then
        if List.isPrefixOf ['a','l','s','e'] rest then some (JValue.jbool false, rest.drop 4)
        else none
      else if c = 'N' then
        if List.isPrefixOf ['a','N'] rest then some (JValue.jnum "NaN", rest.drop 2) else none
      else if c = 'I' then
        if List.isPrefixOf ['n','f','i','n','i','t','y'] rest then
          some (JValue.jnum "Infinity", rest.drop 7)
        else none
      else if c = '-' ∧ List.isPrefixOf ['I','n','f','i','n','i','t','y'] rest then
        some (JValue.jnum "-Infinity", rest.drop 8)
      else if c = '"' then
        match parseJStr rest with
        | some p => some (JValue.jstr (String.mk p.1), p.2)
        | none => none
      else if c = '[' then
        parseJArrItems f rest
      else if c = '{' then
        parseJObjItems f rest
      else if c = '-' ∨ c.isDigit then
        match parseJNum (c :: rest) with
        | some p => some (JValue.jnum (String.mk p.1), p.2)
        | none => none
      else none

/-- Array elements after `[`. -/
def parseJArrItems : Nat → List Char → Option (JValue × List Char)
  | 0, _ => none
  | f + 1, cs =>
    match skipJWs cs with
    | ']' :: rest => some (JValue.jarr [], rest)
    | cs' =>
      match parseJVal f cs' with
      | some p => parseJArrTail f [p.1] p.2
      | none => none

/-- After an array element: `,` and another element, or `]`. -/
def parseJArrTail : Nat → List JValue → List Char → Option (JValue × List Char)
  | 0, _, _ => none
  | f + 1, acc, cs =>
    match skipJWs cs with
    | ',' :: rest =>
      match parseJVal f rest with
      | some p => parseJArrTail f (acc ++ [p.1]) p.2
      | none => none
    | ']' :: rest => some (JValue.jarr acc, rest)
    | _ => none

/-- Object members after `{`. -/
def parseJObjItems : Nat → List Char → Option (JValue × List Char)
  | 0, _ => none
  | f + 1, cs =>
    match skipJWs cs with
    | '}' :: rest => some (JValue.jobj [], rest)
    | '"' :: rest =>
      match parseJStr rest with
      | some key =>
        match skipJWs key.2 with
        | ':' :: rest2 =>
          match parseJVal f rest2 with
          | some p => parseJObjTail f [(String.mk key.1, p.1)] p.2
          | none => none
        | _ => none
      | none => none
    | _ => none

/-- After an object member: `,` and another member, or `\x7d`. -/
def parseJObjTail : Nat → List (String × JValue) → List Char → Option (JValue × List Char)
  | 0, _, _ => none
  | f + 1, acc, cs =>
    match skipJWs cs with
    | ',' :: rest =>
      match skipJWs rest with
      | '"' :: rest1 =>
        match parseJStr rest1 with
        | some key =>
          match skipJWs key.2 with
          | ':' :: rest2 =>
            match parseJVal f rest2 with
            | some p => parseJObjTail f (acc ++ [(String.mk key.1, p.1)]) p.2
            | none => none
          | _ => none
        | none => none
      | _ => none
    | '}' :: rest => some (JValue.jobj acc, rest)
    | _ => none

end

/-- `json.loads(s)`: parse one value, then only whitespace may remain.
The fuel `4 * length + 4` exceeds the recursion depth of any parse of the
input (each fuel step either consumes input or alternates into a sibling
parser that consumes on its next step). -/
def jsonLoads (s : String) : Option JValue :=
  match parseJVal (4 * s.data.length + 4) s.data with
  | some p => if (skipJWs p.2).isEmpty then some p.1 else none
  | none => none

/-- After a matched fence opener `BTBTBT(?:json)?\\s*\\n?` (BT a backtick):
given the text after the first backtick pair's third character, drop the
optional `json` and the maximal whitespace run, and report whether the
position after the match is a line start of the original string (true
exactly when the whitespace run ended with a newline). -/
def afterFenceStart (rest : List Char) : List Char × Bool :=
  let cs1 := rest.drop 2
  let cs2 := if List.isPrefixOf ['j','s','o','n'] cs1 then cs1.drop 4 else cs1
  (cs2.dropWhile isWs, (cs2.takeWhile isWs).getLast? = some '\n')

/-- First fence regex `^BTBTBT(?:json)?\\s*\\n?` (MULTILINE, BT a backtick):
at every line start of the original text, remove three backticks, an
optional `json`, and the following maximal whitespace run (the greedy
`\\s*` also swallows any newline, leaving `\\n?` empty).  `atLS` records
whether the current position is a line start of the original string.  Each
step consumes at least one character, so `fuel` one above the input length
never runs out; the fuel-exhausted fallback returns the rest unchanged. -/
def sub1Go : Nat → List Char → Bool → List Char
  | 0, cs, _ => cs
  | _ + 1, [], _ => []
  | f + 1, c :: rest, atLS =>
    if atLS ∧ List.isPrefixOf ['`','`','`'] (c :: rest) then
      sub1Go f (afterFenceStart rest).1 (afterFenceStart rest).2
    else c :: sub1Go f rest (c = '\n')

/-- Backtracking search for the `\s*$` tail of the second fence regex:
the largest `k` (at most the whitespace-run length) such that after
dropping `k` characters the position is at the end of the string or just
before a newline (a MULTILINE `$`). -/
def fenceEndK (rest : List Char) : Nat → Option Nat
  | 0 => if rest.isEmpty || rest.head? = some '\n' then some 0 else none
  | k + 1 =>
    if (rest.drop (k+1)).isEmpty || (rest.drop (k+1)).head? = some '\n' then some (k+1)
    else fenceEndK rest k

/-- Try to match three backticks followed by `\s*$` at the head of `cs`;
returns the remainder after the matched part. -/
def tryFenceEnd (cs : List Char) : Option (List Char) :=
  if List.isPrefixOf ['`','`','`'] cs then
    let rest := cs.drop 3
    match fenceEndK rest (rest.takeWhile isWs).length with
    | some k => some (rest.drop k)
    | none => none
  else none

/-- Second fence regex `\\n?BTBTBT\\s*$` (MULTILINE): scanning left to
right, remove an optional newline, three backticks, and trailing
whitespace up to a line end or the end of the string.  Fuelled like
`sub1Go` (every match consumes at least three characters). -/
def sub2Go : Nat → List Char → List Char
  | 0, cs => cs
  | _ + 1, [] => []
  | f + 1, c :: rest =>
    if c = '\n' then
      match tryFenceEnd rest with
      | some rem => sub2Go f rem
      | none => c :: sub2Go f rest
    else
      match tryFenceEnd (c :: rest) with
      | some rem => sub2Go f rem
      | none => c :: sub2Go f rest

/-- The two `re.sub` calls of `_parse_answer_json`, in order. -/
def stripFences (s : String) : String :=
  String.mk (sub2Go (s.data.length + 1) (sub1Go (s.data.length + 1) s.data true))

/-- `re.search(r'\x7b.*\x7d', text, re.DOTALL)`: with a greedy dot-all `.*`
the leftmost match runs from the first opening brace to the last closing
brace, provided that closing brace comes later. -/
def extractBraces (cs : List Char) : Option (List Char) :=
  match cs.findIdx? (· = '{') with
  | none => none
  | some i =>
    match cs.reverse.findIdx? (· = '}') with
    | none => none
    | some jr =>
      let j := cs.length - 1 - jr
      if i < j then some ((cs.drop i).take (j - i + 1)) else none

/-- Python `dict.get(key, default)` on parsed object members (later
duplicate keys overwrite earlier ones, hence the reverse search). -/
def dictGet (kvs : List (String × JValue)) (k : String) (dflt : JValue) : JValue :=
  match kvs.reverse.find? (fun p => p.1 = k) with
  | some p => p.2
  | none => dflt

/-- `_parse_answer_json(text)`: strip fences, strip whitespace, try
`json.loads` on the whole text, then on the extracted brace span, and fall
back to `{"answer": text}` with the stripped text. -/
def _parse_answer_json (text : String) : JValue :=
  let t := String.mk (stripWs (stripFences text).data)
  match jsonLoads t with
  | some v => v
  | none =>
    match extractBraces t.data with
    | some sub =>
      match jsonLoads (String.mk sub) with
      | some v => v
      | none => JValue.jobj [("answer", JValue.jstr t)]
    | none => JValue.jobj [("answer", JValue.jstr t)]

/-- The QA-pair dict built by `generate_answer` (the fields derived from
the parsed response; the hash-based id and timestamp are external). -/
structure QAPairM where
  question_id : String
  question : String
  answer : JValue
  answer_short : JValue
  category : JValue
  tags : JValue
  urgency : JValue
  confidence : JValue
  status : String

/-- The response-handling core of `generate_answer`: parse the raw response
text and build the QA dict.  `parsed.get(...)` on a non-dict value raises
`AttributeError` in Python, modelled as the error case. -/
def buildQA (question_id question_text question_category : String) (raw_text : String) :
    Except String QAPairM :=
  match _parse_answer_json raw_text with
  | JValue.jobj kvs =>
    Except.ok
      { question_id := question_id
        question := question_text
        answer := dictGet kvs "answer" (JValue.jstr raw_text)
        answer_short := dictGet kvs "answer_short" (JValue.jstr "")
        category := dictGet kvs "category" (JValue.jstr question_category)
        tags := dictGet kvs "tags" (JValue.jarr [])
        urgency := dictGet kvs "urgency" (JValue.jstr "medium")
        confidence := dictGet kvs "confidence" (JValue.jstr "medium")
        status := "pending_review" }
  | _ => Except.error "AttributeError"

/-! ## Batch runners (`app.py`, `generate_questions_batch.event_stream` and
`generate_answers_batch.event_stream`)

The per-item work inside the `try` block (the model call plus the store
write) is abstracted as a fallible function; `Except.error e` models any
exception caught by the per-item handler, carrying `str(e)`.  The SSE
frames are modelled as a list of discriminated events; the rate-limit
sleep has no observable effect on the emitted data. -/

/-- A question dict as the batches see it. -/
structure Question where
  id : String
  text : String
deriving DecidableEq, Repr

/-- Credential check of `generate_questions_for_chunk`: an empty `api_key`
argument falls back to the `ANTHROPIC_API_KEY` environment value
(`env_key`, empty when unset); if both are empty a `ValueError` is raised
before any request.  The rest of the call is the abstracted `call`. -/
def generate_questions_for_chunk (api_key env_key : String)
    (call : Chunk → Except String (List Question × ℚ)) (chunk : Chunk) :
    Except String (List Question × ℚ) :=
  let key := if api_key = "" then env_key else api_key
  if key = "" then Except.error "ANTHROPIC_API_KEY not set"
  else call chunk

/-- One SSE event of the question batch. -/
inductive QEvent where
  | progress (current total : Nat) (chunk_id : String)
      (questions_generated total_questions : Nat) (cost_so_far : ℚ)
  | error (current total : Nat) (chunk_id : String) (error : String)
  | done (total_questions : Nat) (total_cost : ℚ) (errors : Nat)
deriving DecidableEq, Repr

/-- The question batch loop: `gen` is the per-item `try` body returning the
generated questions and the item's `cost_estimate`.  Accumulators:
position `i`, running question and cost totals, and the error list. -/
def qGo (gen : Chunk → Except String (List Question × ℚ)) :
    List Chunk → Nat → Nat → Nat → ℚ → List (String × String) →
    List QEvent × List (String × String)
  | [], _, _, tq, tc, errs => ([QEvent.done tq (pyRound4 tc) errs.length], errs)
  | c :: rest, i, total, tq, tc, errs =>
    match gen c with
    | Except.ok qs =>
      let tq' := tq + qs.1.length
      let tc' := tc + qs.2
      let p := qGo gen rest (i + 1) total tq' tc' errs
      (QEvent.progress (i + 1) total c.id qs.1.length tq' (pyRound4 tc') :: p.1, p.2)
    | Except.error e =>
      let p := qGo gen rest (i + 1) total tq tc (errs ++ [(c.id, e)])
      (QEvent.error (i + 1) total c.id e :: p.1, p.2)

/-- `generate_questions_batch.event_stream`: the emitted events and the
final error list. -/
def event_stream_questions (gen : Chunk → Except String (List Question × ℚ))
    (chunks : List Chunk) : List QEvent × List (String × String) :=
  qGo gen chunks 0 chunks.length 0 0 []

/-- One SSE event of the answer batch (`question` is the text truncated to
80 characters by `question['text'][:80]`). -/
inductive AEvent where
  | progress (current total : Nat) (question : String) (chunks_used : Nat)
      (total_answers : Nat) (cost_so_far : ℚ)
  | error (current total : Nat) (question_id : String) (error : String)
  | done (total_answers : Nat) (total_cost : ℚ) (errors : Nat)
deriving DecidableEq, Repr

/-- The answer batch loop: `gen` is the per-item `try` body (retrieval,
answer generation, store writes) returning `chunks_used` and the item's
`cost_estimate`. -/
def aGo (gen : Question → Except String (Nat × ℚ)) :
    List Question → Nat → Nat → Nat → ℚ → List (String × String) →
    List AEvent × List (String × String)
  | [], _, _, ta, tc, errs => ([AEvent.done ta (pyRound4 tc) errs.length], errs)
  | q :: rest, i, total, ta, tc, errs =>
    match gen q with
    | Except.ok u =>
      let ta' := ta + 1
      let tc' := tc + u.2
      let p := aGo gen rest (i + 1) total ta' tc' errs
      (AEvent.progress (i + 1) total (String.mk (q.text.data.take 80)) u.1 ta'
        (pyRound4 tc') :: p.1, p.2)
    | Except.error e =>
      let p := aGo gen rest (i + 1) total ta tc (errs ++ [(q.id, e)])
      (AEvent.error (i + 1) total q.id e :: p.1, p.2)

/-- `generate_answers_batch.event_stream`: the emitted events and the final
error list. -/
def event_stream_answers (gen : Question → Except String (Nat × ℚ))
    (questions : List Question) : List AEvent × List (String × String) :=
  aGo gen questions 0 questions.length 0 0 []

/-! ## Observers used by the claim statements -/

/-- Whether a chunk's embedding is present for retrieval purposes
(the source skips `None` and empty vectors). -/
def hasEmb (c : RChunk) : Bool :=
  match c.embedding with
  | some v => !v.isEmpty
  | none => false

/-- Whether the per-item call of the question batch succeeds. -/
def qOk (gen : Chunk → Except String (List Question × ℚ)) (c : Chunk) : Bool :=
  match gen c with
  | Except.ok _ => true
  | Except.error _ => false

/-- The error-list entry the question batch records for a failing item. -/
def qFailEntry (gen : Chunk → Except String (List Question × ℚ)) (c : Chunk) :
    Option (String × String) :=
  match gen c with
  | Except.ok _ => none
  | Except.error e => some (c.id, e)

/-- The item identifier carried by a question-batch event (`none` for the
terminal event). -/
def qEvtId : QEvent → Option String
  | QEvent.progress _ _ cid _ _ _ => some cid
  | QEvent.error _ _ cid _ => some cid
  | QEvent.done _ _ _ => none

def isQProgress : QEvent → Bool
  | QEvent.progress _ _ _ _ _ _ => true
  | _ => false

/-- Whether the per-item call of the answer batch succeeds. -/
def aOk (gen : Question → Except String (Nat × ℚ)) (q : Question) : Bool :=
  match gen q with
  | Except.ok _ => true
  | Except.error _ => false

/-- The error-list entry the answer batch records for a failing item. -/
def aFailEntry (gen : Question → Except String (Nat × ℚ)) (q : Question) :
    Option (String × String) :=
  match gen q with
  | Except.ok _ => none
  | Except.error e => some (q.id, e)

/-- The item identifier carried by an answer-batch event: the truncated
question text for progress, the question id for errors. -/
def aEvtId : AEvent → Option String
  | AEvent.progress _ _ qt _ _ _ => some qt
  | AEvent.error _ _ qid _ => some qid
  | AEvent.done _ _ _ => none

def isAProgress : AEvent → Bool
  | AEvent.progress _ _ _ _ _ _ => true
  | _ => false

/-- A 2600-word section used as the concrete chunking scenario input. -/
def words2600 : List (List Char) := List.replicate 2600 ['a']

def sec2600 : Sec := { text := String.mk (joinSpace words2600) }

/-! ## Helper lemmas and claim theorems -/

theorem pyRound4_coe_int (m : ℤ) : pyRound4 ((m : ℚ) / 10000) = (m : ℚ) / 10000 := by
  have hy : ((m : ℚ) / 10000) * 10000 = (m : ℚ) := by
    field_simp
  simp only [pyRound4, hy, Int.floor_intCast, sub_self]
  norm_num

theorem estimate_batch_cost_val (c : List Chunk) :
    (estimate_batch_cost c).estimated_cost_usd = ((345 * c.length : ℤ) : ℚ) / 10000 := by
  have harg : (c.length * 1500 * 3 : ℚ) / 1000000 + (c.length * 2000 * 15 : ℚ) / 1000000
      = ((345 * c.length : ℤ) : ℚ) / 10000 := by
    push_cast
    ring
  simp only [estimate_batch_cost, harg, pyRound4_coe_int]

theorem estimate_answer_cost_val (n : Nat) :
    (estimate_answer_cost n).estimated_cost_usd = ((240 * n : ℤ) : ℚ) / 10000 := by
  have harg : (n * 3000 * 3 : ℚ) / 1000000 + (n * 1000 * 15 : ℚ) / 1000000
      = ((240 * n : ℤ) : ℚ) / 10000 := by
    push_cast
    ring
  simp only [estimate_answer_cost, harg, pyRound4_coe_int]

/-- C9: the cost estimators are linear in item count: doubling the number
of chunks (resp. questions) exactly doubles `estimated_cost_usd`. -/
theorem cost_estimators_linear (n : Nat) (h : 0 < n) (c1 c2 : List Chunk)
    (h1 : c1.length = n) (h2 : c2.length = 2 * n) :
    (estimate_batch_cost c2).estimated_cost_usd
      = 2 * (estimate_batch_cost c1).estimated_cost_usd
    ∧ (estimate_answer_cost (2 * n)).estimated_cost_usd
      = 2 * (estimate_answer_cost n).estimated_cost_usd := by
  constructor
  · rw [estimate_batch_cost_val, estimate_batch_cost_val, h1, h2]
    push_cast
    ring
  · rw [estimate_answer_cost_val, estimate_answer_cost_val]
    push_cast
    ring

/-- Witness for C9 at `n = 1`, with one- and two-element chunk lists. -/
theorem cost_estimators_linear_witness :
    0 < 1
    ∧ (List.replicate 1 (Chunk.mk "i" "s" "" "" "" 0 0)).length = 1
    ∧ (List.replicate 2 (Chunk.mk "i" "s" "" "" "" 0 0)).length = 2 * 1
    ∧ (estimate_batch_cost (List.replicate 2 (Chunk.mk "i" "s" "" "" "" 0 0))).estimated_cost_usd
      = 2 * (estimate_batch_cost
          (List.replicate 1 (Chunk.mk "i" "s" "" "" "" 0 0))).estimated_cost_usd
    ∧ (estimate_answer_cost (2 * 1)).estimated_cost_usd
      = 2 * (estimate_answer_cost 1).estimated_cost_usd :=
  ⟨by decide, rfl, rfl,
    cost_estimators_linear 1 (by decide) _ _ rfl rfl⟩

theorem windowLoop_isSome (tw ow : Nat) (hlt : ow < tw) :
    ∀ fuel s n, n ≤ s + fuel → 1 ≤ fuel → (windowLoop fuel n tw ow s).isSome := by
  intro fuel
  induction fuel with
  | zero => intro s n h h1; omega
  | succ f ih =>
    intro s n h _
    rw [windowLoop]
    by_cases hs : s < n
    · rw [if_pos hs]
      by_cases he : n ≤ min (s + tw) n
      · rw [if_pos he]
        simp
      · rw [if_neg he]
        have hsn : s + tw < n := by omega
        have hrec := ih (windowStep n tw ow s) n
          (by simp only [windowStep]; omega) (by omega)
        cases hw : windowLoop f n tw ow (windowStep n tw ow s) with
        | none => rw [hw] at hrec; simp at hrec
        | some ws => simp [hw]
    · rw [if_neg hs]
      simp

theorem sectionChunks_isSome (sid : String) (tw ow idx : Nat) (s : Sec) (hlt : ow < tw) :
    (sectionChunks sid tw ow idx s).isSome := by
  simp only [sectionChunks]
  split
  · simp
  · split
    · simp
    · have h := windowLoop_isSome tw ow hlt
        ((splitWs (stripWs s.text.data)).length + 1) 0
        (splitWs (stripWs s.text.data)).length (by omega) (by omega)
      cases hw : windowLoop ((splitWs (stripWs s.text.data)).length + 1)
          (splitWs (stripWs s.text.data)).length tw ow 0 with
      | none => rw [hw] at h; simp at h
      | some ws => simp [hw]

theorem chunkSecGo_isSome (sid : String) (tw ow : Nat) (hlt : ow < tw) :
    ∀ (secs : List Sec) (idx : Nat), (chunkSecGo sid tw ow idx secs).isSome := by
  intro secs
  induction secs with
  | nil => intro idx; simp [chunkSecGo]
  | cons s rest ih =>
    intro idx
    rw [chunkSecGo]
    cases hs : sectionChunks sid tw ow idx s with
    | none =>
      have hcontra := sectionChunks_isSome sid tw ow idx s hlt
      rw [hs] at hcontra
      simp at hcontra
    | some cs =>
      cases hr : chunkSecGo sid tw ow (idx + cs.length) rest with
      | none =>
        have hcontra := ih (idx + cs.length)
        rw [hr] at hcontra
        simp at hcontra
      | some more => simp [hr]

/-- C10: the chunker's sliding-window loop terminates whenever
`int(overlap_tokens / 0.75) < int(target_tokens / 0.75)` (in particular for
the defaults 1500/200): the start index strictly increases on every
iteration that continues.  The precondition is necessary: when the overlap
word count is at least the target word count, the start index does not
advance. -/
theorem chunker_termination :
    (∀ (sections : List Sec) (source_id : String) (target_tokens overlap_tokens : Nat),
        4 * overlap_tokens / 3 < 4 * target_tokens / 3 →
        (chunk_sections sections source_id target_tokens overlap_tokens).isSome)
    ∧ (∀ n tw ow s : Nat, ow < tw → s + tw < n → s < windowStep n tw ow s)
    ∧ (∀ n tw ow s : Nat, tw ≤ ow → windowStep n tw ow s ≤ s) := by
  refine ⟨?_, ?_, ?_⟩
  · intro sections source_id t o hlt
    exact chunkSecGo_isSome source_id _ _ hlt sections 0
  · intro n tw ow s h1 h2
    simp only [windowStep]
    omega
  · intro n tw ow s h
    simp only [windowStep]
    omega

/-- Witness for C10: the default parameters satisfy the precondition and a
small chunking run terminates; the step advances for `ow < tw` and stalls
for `tw ≤ ow` at concrete values. -/
theorem chunker_termination_witness :
    4 * 200 / 3 < 4 * 1500 / 3
    ∧ (chunk_sections [{ text := "hello world" }] "src" 1500 200).isSome
    ∧ (1 < 2 ∧ 0 + 2 < 5 ∧ 0 < windowStep 5 2 1 0)
    ∧ (2 ≤ 3 ∧ windowStep 9 2 3 4 ≤ 4) :=
  ⟨by decide, chunker_termination.1 _ _ _ _ (by decide),
   ⟨by decide, by decide, chunker_termination.2.1 5 2 1 0 (by decide) (by decide)⟩,
   ⟨by decide, chunker_termination.2.2 9 2 3 4 (by decide)⟩⟩

theorem zipAssign_maps :
    ∀ (cs : List EChunk) (es : List (List ℚ)), cs.length = es.length →
      (zipAssign cs es).map (·.embedding) = es.map some
      ∧ (zipAssign cs es).map (·.text) = cs.map (·.text) := by
  intro cs
  induction cs with
  | nil =>
    intro es h
    cases es with
    | nil => simp [zipAssign]
    | cons e es => simp at h
  | cons c cs ih =>
    intro es h
    cases es with
    | nil => simp at h
    | cons e es =>
      simp only [List.length_cons, Nat.add_right_cancel_iff] at h
      have := ih es h
      simp [zipAssign, this.1, this.2]

/-- C8 amended: `embed_chunks` attaches one embedding vector to every chunk
in order — including chunks with empty or whitespace-only text, which are
embedded like any other, not skipped — whenever the embedding service
returns one vector per input text. -/
theorem embed_chunks_assigns_all (embedFn : List String → List (List ℚ))
    (hlen : ∀ ts, (embedFn ts).length = ts.length) (chunks : List EChunk) :
    (embed_chunks embedFn chunks).map (·.embedding)
      = (embedFn (chunks.map (·.text))).map some
    ∧ (embed_chunks embedFn chunks).map (·.text) = chunks.map (·.text) := by
  simp only [embed_chunks]
  split
  · rename_i hempty
    have hnil : chunks = [] := by
      cases chunks with
      | nil => rfl
      | cons c cs => simp at hempty
    subst hnil
    have h0 : embedFn [] = [] := by
      have := hlen []
      cases hh : embedFn [] with
      | nil => rfl
      | cons e es => rw [hh] at this; simp at this
    simp [h0]
  · exact zipAssign_maps chunks (embedFn (chunks.map (·.text)))
      (by rw [hlen]; simp)

/-- C8 counterexample: a chunk whose text is empty still receives an
embedding (the claim says chunks lacking text receive none at all). -/
theorem embed_chunks_empty_text_counterexample :
    embed_chunks (fun ts => ts.map (fun _ => [(1 : ℚ)])) [{ text := "", embedding := none }]
      = [{ text := "", embedding := some [(1 : ℚ)] }]
    ∧ (some [(1 : ℚ)] : Option (List ℚ)) ≠ none := by
  constructor
  · rfl
  · simp

/-- Witness for C8 at a one-chunk list with empty text and a constant
embedding service. -/
theorem embed_chunks_assigns_all_witness :
    (∀ ts : List String, (ts.map (fun _ => [(1 : ℚ)])).length = ts.length)
    ∧ (embed_chunks (fun ts => ts.map (fun _ => [(1 : ℚ)]))
          [{ text := "", embedding := none }]).map (·.embedding)
      = (([({ text := "", embedding := none } : EChunk)].map (·.text)).map
          (fun _ => [(1 : ℚ)])).map some
    ∧ (embed_chunks (fun ts => ts.map (fun _ => [(1 : ℚ)]))
          [{ text := "", embedding := none }]).map (·.text)
      = [({ text := "", embedding := none } : EChunk)].map (·.text) :=
  ⟨fun ts => by simp,
    embed_chunks_assigns_all (fun ts => ts.map (fun _ => [(1 : ℚ)]))
      (fun ts => by simp) [{ text := "", embedding := none }]⟩

theorem qGo_errs (gen : Chunk → Except String (List Question × ℚ)) :
    ∀ (chunks : List Chunk) (i total tq : Nat) (tc : ℚ) (errs : List (String × String)),
      (qGo gen chunks i total tq tc errs).2 = errs ++ chunks.filterMap (qFailEntry gen) := by
  intro chunks
  induction chunks with
  | nil => intro i total tq tc errs; simp [qGo]
  | cons c rest ih =>
    intro i total tq tc errs
    simp only [qGo]
    cases hg : gen c with
    | ok qs => simp [qFailEntry, hg, ih]
    | error e => simp [qFailEntry, hg, ih]

theorem qGo_len (gen : Chunk → Except String (List Question × ℚ)) :
    ∀ (chunks : List Chunk) (i total tq : Nat) (tc : ℚ) (errs : List (String × String)),
      (qGo gen chunks i total tq tc errs).1.length = chunks.length + 1 := by
  intro chunks
  induction chunks with
  | nil => intro i total tq tc errs; simp [qGo]
  | cons c rest ih =>
    intro i total tq tc errs
    simp only [qGo]
    cases hg : gen c with
    | ok qs => simp [ih]
    | error e => simp [ih]

theorem qGo_ids (gen : Chunk → Except String (List Question × ℚ)) :
    ∀ (chunks : List Chunk) (i total tq : Nat) (tc : ℚ) (errs : List (String × String)),
      (qGo gen chunks i total tq tc errs).1.map qEvtId
        = chunks.map (fun c => some c.id) ++ [none] := by
  intro chunks
  induction chunks with
  | nil => intro i total tq tc errs; simp [qGo, qEvtId]
  | cons c rest ih =>
    intro i total tq tc errs
    simp only [qGo]
    cases hg : gen c with
    | ok qs => simp [qEvtId, ih]
    | error e => simp [qEvtId, ih]

theorem qGo_prog (gen : Chunk → Except String (List Question × ℚ)) :
    ∀ (chunks : List Chunk) (i total tq : Nat) (tc : ℚ) (errs : List (String × String)),
      (qGo gen chunks i total tq tc errs).1.countP isQProgress
        = chunks.countP (qOk gen) := by
  intro chunks
  induction chunks with
  | nil => intro i total tq tc errs; simp [qGo, isQProgress]
  | cons c rest ih =>
    intro i total tq tc errs
    simp only [qGo]
    cases hg : gen c with
    | ok qs =>
      simp [isQProgress, ih, qOk, hg, List.countP_cons]
    | error e =>
      simp [isQProgress, ih, qOk, hg, List.countP_cons]

theorem qGo_done (gen : Chunk → Except String (List Question × ℚ)) :
    ∀ (chunks : List Chunk) (i total tq : Nat) (tc : ℚ) (errs : List (String × String)),
      ∃ a b, (qGo gen chunks i total tq tc errs).1.getLast?
        = some (QEvent.done a b (errs ++ chunks.filterMap (qFailEntry gen)).length) := by
  intro chunks
  induction chunks with
  | nil =>
    intro i total tq tc errs
    exact ⟨tq, pyRound4 tc, by simp [qGo]⟩
  | cons c rest ih =>
    intro i total tq tc errs
    simp only [qGo]
    cases hg : gen c with
    | ok qs =>
      obtain ⟨a, b, hl⟩ := ih (i + 1) total (tq + qs.1.length) (tc + qs.2) errs
      refine ⟨a, b, ?_⟩
      have hlen := qGo_len gen rest (i + 1) total (tq + qs.1.length) (tc + qs.2) errs
      cases hev : (qGo gen rest (i + 1) total (tq + qs.1.length) (tc + qs.2) errs).1 with
      | nil => rw [hev] at hlen; simp at hlen
      | cons x xs =>
        rw [hev] at hl
        simp only [hg, hev]
        rw [List.getLast?_cons_cons, hl]
        simp [qFailEntry, hg, List.filterMap_cons]
        try omega
    | error e =>
      obtain ⟨a, b, hl⟩ := ih (i + 1) total tq tc (errs ++ [(c.id, e)])
      refine ⟨a, b, ?_⟩
      have hlen := qGo_len gen rest (i + 1) total tq tc (errs ++ [(c.id, e)])
      cases hev : (qGo gen rest (i + 1) total tq tc (errs ++ [(c.id, e)])).1 with
      | nil => rw [hev] at hlen; simp at hlen
      | cons x xs =>
        rw [hev] at hl
        simp only [hg, hev]
        rw [List.getLast?_cons_cons, hl]
        simp [qFailEntry, hg, List.filterMap_cons]
        try omega

theorem countP_qOk_add_fails (gen : Chunk → Except String (List Question × ℚ)) :
    ∀ chunks : List Chunk,
      chunks.countP (qOk gen) + (chunks.filterMap (qFailEntry gen)).length = chunks.length := by
  intro chunks
  induction chunks with
  | nil => simp
  | cons c rest ih =>
    cases hg : gen c with
    | ok qs => simp [List.countP_cons, List.filterMap_cons, qOk, qFailEntry, hg]; omega
    | error e => simp [List.countP_cons, List.filterMap_cons, qOk, qFailEntry, hg]; omega

theorem aGo_errs (gen : Question → Except String (Nat × ℚ)) :
    ∀ (questions : List Question) (i total ta : Nat) (tc : ℚ) (errs : List (String × String)),
      (aGo gen questions i total ta tc errs).2 = errs ++ questions.filterMap (aFailEntry gen) := by
  intro questions
  induction questions with
  | nil => intro i total ta tc errs; simp [aGo]
  | cons q rest ih =>
    intro i total ta tc errs
    simp only [aGo]
    cases hg : gen q with
    | ok u => simp [aFailEntry, hg, ih]
    | error e => simp [aFailEntry, hg, ih]

theorem aGo_len (gen : Question → Except String (Nat × ℚ)) :
    ∀ (questions : List Question) (i total ta : Nat) (tc : ℚ) (errs : List (String × String)),
      (aGo gen questions i total ta tc errs).1.length = questions.length + 1 := by
  intro questions
  induction questions with
  | nil => intro i total ta tc errs; simp [aGo]
  | cons q rest ih =>
    intro i total ta tc errs
    simp only [aGo]
    cases hg : gen q with
    | ok u => simp [ih]
    | error e => simp [ih]

theorem aGo_ids (gen : Question → Except String (Nat × ℚ)) :
    ∀ (questions : List Question) (i total ta : Nat) (tc : ℚ) (errs : List (String × String)),
      (aGo gen questions i total ta tc errs).1.map aEvtId
        = questions.map (fun q =>
            some (if aOk gen q then String.mk (q.text.data.take 80) else q.id)) ++ [none] := by
  intro questions
  induction questions with
  | nil => intro i total ta tc errs; simp [aGo, aEvtId]
  | cons q rest ih =>
    intro i total ta tc errs
    simp only [aGo]
    cases hg : gen q with
    | ok u => simp [aEvtId, ih, aOk, hg]
    | error e => simp [aEvtId, ih, aOk, hg]

theorem aGo_prog (gen : Question → Except String (Nat × ℚ)) :
    ∀ (questions : List Question) (i total ta : Nat) (tc : ℚ) (errs : List (String × String)),
      (aGo gen questions i total ta tc errs).1.countP isAProgress
        = questions.countP (aOk gen) := by
  intro questions
  induction questions with
  | nil => intro i total ta tc errs; simp [aGo, isAProgress]
  | cons q rest ih =>
    intro i total ta tc errs
    simp only [aGo]
    cases hg : gen q with
    | ok u => simp [isAProgress, ih, aOk, hg, List.countP_cons]
    | error e => simp [isAProgress, ih, aOk, hg, List.countP_cons]

theorem aGo_done (gen : Question → Except String (Nat × ℚ)) :
    ∀ (questions : List Question) (i total ta : Nat) (tc : ℚ) (errs : List (String × String)),
      ∃ a b, (aGo gen questions i total ta tc errs).1.getLast?
        = some (AEvent.done a b (errs ++ questions.filterMap (aFailEntry gen)).length) := by
  intro questions
  induction questions with
  | nil =>
    intro i total ta tc errs
    exact ⟨ta, pyRound4 tc, by simp [aGo]⟩
  | cons q rest ih =>
    intro i total ta tc errs
    simp only [aGo]
    cases hg : gen q with
    | ok u =>
      obtain ⟨a, b, hl⟩ := ih (i + 1) total (ta + 1) (tc + u.2) errs
      refine ⟨a, b, ?_⟩
      have hlen := aGo_len gen rest (i + 1) total (ta + 1) (tc + u.2) errs
      cases hev : (aGo gen rest (i + 1) total (ta + 1) (tc + u.2) errs).1 with
      | nil => rw [hev] at hlen; simp at hlen
      | cons x xs =>
        rw [hev] at hl
        simp only [hg, hev]
        rw [List.getLast?_cons_cons, hl]
        simp [aFailEntry, hg, List.filterMap_cons]
        try omega
    | error e =>
      obtain ⟨a, b, hl⟩ := ih (i + 1) total ta tc (errs ++ [(q.id, e)])
      refine ⟨a, b, ?_⟩
      have hlen := aGo_len gen rest (i + 1) total ta tc (errs ++ [(q.id, e)])
      cases hev : (aGo gen rest (i + 1) total ta tc (errs ++ [(q.id, e)])).1 with
      | nil => rw [hev] at hlen; simp at hlen
      | cons x xs =>
        rw [hev] at hl
        simp only [hg, hev]
        rw [List.getLast?_cons_cons, hl]
        simp [aFailEntry, hg, List.filterMap_cons]
        try omega

theorem countP_aOk_add_fails (gen : Question → Except String (Nat × ℚ)) :
    ∀ questions : List Question,
      questions.countP (aOk gen) + (questions.filterMap (aFailEntry gen)).length
        = questions.length := by
  intro questions
  induction questions with
  | nil => simp
  | cons q rest ih =>
    cases hg : gen q with
    | ok u => simp [List.countP_cons, List.filterMap_cons, aOk, aFailEntry, hg]; omega
    | error e => simp [List.countP_cons, List.filterMap_cons, aOk, aFailEntry, hg]; omega

/-- C2: for any per-item outcome function, both batch event streams process
every item in order (one event per item, in input order, then the terminal
event), emit one progress event per success (so `N - |F|` of them), record
exactly one error-list entry per failed item carrying that item's
identifier and message, and end with a `done` event whose error count is
the number of failures; the batch never aborts early. -/
theorem batch_isolates_item_failures
    (genq : Chunk → Except String (List Question × ℚ)) (chunks : List Chunk)
    (gena : Question → Except String (Nat × ℚ)) (questions : List Question) :
    ((event_stream_questions genq chunks).2 = chunks.filterMap (qFailEntry genq)
      ∧ (event_stream_questions genq chunks).1.length = chunks.length + 1
      ∧ (event_stream_questions genq chunks).1.map qEvtId
          = chunks.map (fun c => some c.id) ++ [none]
      ∧ (event_stream_questions genq chunks).1.countP isQProgress
          = chunks.length - (chunks.filterMap (qFailEntry genq)).length
      ∧ ∃ a b, (event_stream_questions genq chunks).1.getLast?
          = some (QEvent.done a b (chunks.filterMap (qFailEntry genq)).length))
    ∧ ((event_stream_answers gena questions).2 = questions.filterMap (aFailEntry gena)
      ∧ (event_stream_answers gena questions).1.length = questions.length + 1
      ∧ (event_stream_answers gena questions).1.map aEvtId
          = questions.map (fun q =>
              some (if aOk gena q then String.mk (q.text.data.take 80) else q.id)) ++ [none]
      ∧ (event_stream_answers gena questions).1.countP isAProgress
          = questions.length - (questions.filterMap (aFailEntry gena)).length
      ∧ ∃ a b, (event_stream_answers gena questions).1.getLast?
          = some (AEvent.done a b (questions.filterMap (aFailEntry gena)).length)) := by
  constructor
  · refine ⟨?_, ?_, ?_, ?_, ?_⟩
    · simpa using qGo_errs genq chunks 0 chunks.length 0 0 []
    · exact qGo_len genq chunks 0 chunks.length 0 0 []
    · exact qGo_ids genq chunks 0 chunks.length 0 0 []
    · rw [event_stream_questions, qGo_prog genq chunks 0 chunks.length 0 0 []]
      have := countP_qOk_add_fails genq chunks
      omega
    · simpa using qGo_done genq chunks 0 chunks.length 0 0 []
  · refine ⟨?_, ?_, ?_, ?_, ?_⟩
    · simpa using aGo_errs gena questions 0 questions.length 0 0 []
    · exact aGo_len gena questions 0 questions.length 0 0 []
    · exact aGo_ids gena questions 0 questions.length 0 0 []
    · rw [event_stream_answers, aGo_prog gena questions 0 questions.length 0 0 []]
      have := countP_aOk_add_fails gena questions
      omega
    · simpa using aGo_done gena questions 0 questions.length 0 0 []

/-- C3 amended: with missing credentials (no `api_key` argument, no
environment key) every item's generation call raises before contacting the
service, and the batch is NOT aborted: it records one per-item error for
every item, processes all of them, and ends with a `done` event counting
one error per item. -/
theorem missing_credentials_not_fatal
    (call : Chunk → Except String (List Question × ℚ)) (chunks : List Chunk) :
    (event_stream_questions (generate_questions_for_chunk "" "" call) chunks).2
      = chunks.map (fun c => (c.id, "ANTHROPIC_API_KEY not set"))
    ∧ (event_stream_questions (generate_questions_for_chunk "" "" call) chunks).1.length
      = chunks.length + 1
    ∧ ∃ a b, (event_stream_questions (generate_questions_for_chunk "" "" call) chunks).1.getLast?
        = some (QEvent.done a b chunks.length) := by
  have hfail : qFailEntry (generate_questions_for_chunk "" "" call)
      = fun c => some (c.id, "ANTHROPIC_API_KEY not set") := rfl
  have hmap : chunks.filterMap (qFailEntry (generate_questions_for_chunk "" "" call))
      = chunks.map (fun c => (c.id, "ANTHROPIC_API_KEY not set")) := by
    rw [hfail]
    induction chunks with
    | nil => simp
    | cons c rest ih => simp [List.filterMap_cons, ih]
  refine ⟨?_, ?_, ?_⟩
  · rw [show (event_stream_questions (generate_questions_for_chunk "" "" call) chunks).2
        = chunks.filterMap (qFailEntry (generate_questions_for_chunk "" "" call)) by
      simpa using qGo_errs (generate_questions_for_chunk "" "" call) chunks
        0 chunks.length 0 0 [], hmap]
  · exact qGo_len (generate_questions_for_chunk "" "" call) chunks 0 chunks.length 0 0 []
  · have hd := qGo_done (generate_questions_for_chunk "" "" call) chunks 0 chunks.length 0 0 []
    simp only [List.nil_append] at hd
    rw [hmap] at hd
    simpa using hd

/-- C3 counterexample: a two-item batch with missing credentials records a
per-item error for BOTH items (so items were attempted and the batch
continued), contradicting "aborts before any items are attempted". -/
theorem missing_credentials_counterexample :
    (event_stream_questions (generate_questions_for_chunk "" "" (fun _ => Except.ok ([], 0)))
        [Chunk.mk "c1" "s" "" "" "" 0 0, Chunk.mk "c2" "s" "" "" "" 0 1]).2
      = [("c1", "ANTHROPIC_API_KEY not set"), ("c2", "ANTHROPIC_API_KEY not set")]
    ∧ ([("c1", "ANTHROPIC_API_KEY not set"), ("c2", "ANTHROPIC_API_KEY not set")]
        : List (String × String)) ≠ [] := by
  constructor
  · rfl
  · simp

/-- C5 amended: when the fence-stripped response parses as JSON neither as
a whole nor via the extracted brace span, answer generation does not fail:
it returns a QA pair whose `answer` is the fence-stripped response text
(equal to the raw response when no fences are present).  A response that
parses as non-object JSON (such as `3`), however, raises. -/
theorem answer_parse_fallback (raw qid qtext qcat : String)
    (h1 : jsonLoads (String.mk (stripWs (stripFences raw).data)) = none)
    (h2 : ∀ sub, extractBraces (stripWs (stripFences raw).data) = some sub →
        jsonLoads (String.mk sub) = none) :
    buildQA qid qtext qcat raw
      = Except.ok
          { question_id := qid
            question := qtext
            answer := JValue.jstr (String.mk (stripWs (stripFences raw).data))
            answer_short := JValue.jstr ""
            category := JValue.jstr qcat
            tags := JValue.jarr []
            urgency := JValue.jstr "medium"
            confidence := JValue.jstr "medium"
            status := "pending_review" } := by
  have hp : _parse_answer_json raw
      = JValue.jobj [("answer", JValue.jstr (String.mk (stripWs (stripFences raw).data)))] := by
    cases hx : extractBraces (stripWs (stripFences raw).data) with
    | none => simp [_parse_answer_json, h1, hx]
    | some sub => simp [_parse_answer_json, h1, hx, h2 sub hx]
  simp only [buildQA, hp]
  rfl

/-- Witness for C5's amended statement at the spec's scenario response
`not json at all` (which contains no fences, so the answer equals the raw
response text). -/
theorem answer_parse_fallback_witness :
    jsonLoads (String.mk (stripWs (stripFences "not json at all").data)) = none
    ∧ (∀ sub, extractBraces (stripWs (stripFences "not json at all").data) = some sub →
        jsonLoads (String.mk sub) = none)
    ∧ String.mk (stripWs (stripFences "not json at all").data) = "not json at all"
    ∧ buildQA "q-1" "What?" "" "not json at all"
      = Except.ok
          { question_id := "q-1"
            question := "What?"
            answer := JValue.jstr (String.mk (stripWs (stripFences "not json at all").data))
            answer_short := JValue.jstr ""
            category := JValue.jstr ""
            tags := JValue.jarr []
            urgency := JValue.jstr "medium"
            confidence := JValue.jstr "medium"
            status := "pending_review" } :=
  ⟨rfl, fun sub h => Option.noConfusion h, rfl,
    answer_parse_fallback "not json at all" "q-1" "What?" ""
      rfl (fun sub h => Option.noConfusion h)⟩

/-- C5 counterexample: the response `3` is not a JSON object and contains
no extractable brace span, yet answer generation raises
(`parsed.get` on the parsed integer fails) instead of degrading to the raw
text. -/
theorem answer_parse_nonobject_counterexample :
    jsonLoads "3" = some (JValue.jnum "3")
    ∧ extractBraces (String.data "3") = none
    ∧ buildQA "q-1" "What?" "" "3" = Except.error "AttributeError" :=
  ⟨rfl, rfl, rfl⟩

theorem windowChunks_idx (words : List (List Char)) (sid ch se : String) :
    ∀ (wins : List (Nat × Nat)) (idx : Nat),
      (windowChunks words sid ch se idx wins).map (·.chunk_index)
        = List.range' idx wins.length := by
  intro wins
  induction wins with
  | nil => intro idx; simp [windowChunks]
  | cons w rest ih =>
    intro idx
    cases w with
    | mk s e => simp [windowChunks, mkChunk, List.range'_succ, ih]

theorem windowChunks_id (words : List (List Char)) (sid ch se : String) :
    ∀ (wins : List (Nat × Nat)) (idx : Nat),
      ∀ c ∈ windowChunks words sid ch se idx wins, c.id = mkId sid c.chunk_index := by
  intro wins
  induction wins with
  | nil => intro idx c hc; simp [windowChunks] at hc
  | cons w rest ih =>
    intro idx c hc
    cases w with
    | mk s e =>
      simp only [windowChunks, List.mem_cons] at hc
      cases hc with
      | inl h => subst h; rfl
      | inr h => exact ih (idx + 1) c h

theorem sectionChunks_spec (sid : String) (tw ow idx : Nat) (s : Sec) (cs : List Chunk)
    (h : sectionChunks sid tw ow idx s = some cs) :
    cs.map (·.chunk_index) = List.range' idx cs.length
    ∧ ∀ c ∈ cs, c.id = mkId sid c.chunk_index := by
  simp only [sectionChunks] at h
  split at h
  · cases h
    simp
  · split at h
    · cases h
      refine ⟨by simp [mkChunk, List.range'_succ], ?_⟩
      intro c hc
      simp only [List.mem_singleton] at hc
      subst hc
      rfl
    · split at h
      · cases h
        rename_i wins hw
        refine ⟨?_, windowChunks_id _ sid _ _ wins idx⟩
        have hlen : (windowChunks (splitWs (stripWs s.text.data)) sid s.chapter s.sec idx
            wins).length = wins.length := by
          have := windowChunks_idx (splitWs (stripWs s.text.data)) sid s.chapter s.sec wins idx
          have hml := congrArg List.length this
          simpa using hml
        rw [hlen]
        exact windowChunks_idx _ sid _ _ wins idx
      · cases h

theorem chunkSecGo_spec (sid : String) (tw ow : Nat) :
    ∀ (secs : List Sec) (idx : Nat) (l : List Chunk),
      chunkSecGo sid tw ow idx secs = some l →
      l.map (·.chunk_index) = List.range' idx l.length
      ∧ ∀ c ∈ l, c.id = mkId sid c.chunk_index := by
  intro secs
  induction secs with
  | nil =>
    intro idx l h
    simp only [chunkSecGo] at h
    cases h
    simp
  | cons s rest ih =>
    intro idx l h
    simp only [chunkSecGo] at h
    split at h
    · cases h
    · rename_i cs hcs
      split at h
      · cases h
      · rename_i more hmore
        cases h
        obtain ⟨hidx1, hid1⟩ := sectionChunks_spec sid tw ow idx s cs hcs
        obtain ⟨hidx2, hid2⟩ := ih (idx + cs.length) more hmore
        constructor
        · rw [List.map_append, hidx1, hidx2, List.length_append]
          have hr := List.range'_append idx cs.length more.length 1
          simp only [one_mul] at hr
          rw [Nat.add_comm cs.length more.length, ← hr]
        · intro c hc
          rcases List.mem_append.mp hc with h1 | h2
          · exact hid1 c h1
          · exact hid2 c h2

theorem digitChar_inj : ∀ a < 10, ∀ b < 10, Nat.digitChar a = Nat.digitChar b → a = b := by
  decide

theorem format04_inj : ∀ i j : Nat, i < 10000 → j < 10000 → format04 i = format04 j → i = j := by
  intro i j hi hj h
  simp only [format04, if_pos hi, if_pos hj] at h
  have hd : [Nat.digitChar (i / 1000 % 10), Nat.digitChar (i / 100 % 10),
      Nat.digitChar (i / 10 % 10), Nat.digitChar (i % 10)]
      = [Nat.digitChar (j / 1000 % 10), Nat.digitChar (j / 100 % 10),
         Nat.digitChar (j / 10 % 10), Nat.digitChar (j % 10)] := congrArg String.data h
  simp only [List.cons.injEq, and_true] at hd
  obtain ⟨e3, e2, e1, e0⟩ := hd
  have d3 := digitChar_inj _ (Nat.mod_lt _ (by norm_num)) _ (Nat.mod_lt _ (by norm_num)) e3
  have d2 := digitChar_inj _ (Nat.mod_lt _ (by norm_num)) _ (Nat.mod_lt _ (by norm_num)) e2
  have d1 := digitChar_inj _ (Nat.mod_lt _ (by norm_num)) _ (Nat.mod_lt _ (by norm_num)) e1
  have d0 := digitChar_inj _ (Nat.mod_lt _ (by norm_num)) _ (Nat.mod_lt _ (by norm_num)) e0
  omega

theorem mkId_inj (sid : String) :
    ∀ i j : Nat, i < 10000 → j < 10000 → mkId sid i = mkId sid j → i = j := by
  intro i j hi hj h
  apply format04_inj i j hi hj
  have hd := congrArg String.data h
  simp only [mkId, String.data_append, List.append_assoc] at hd
  have h1 := List.append_cancel_left hd
  have h2 := List.append_cancel_left h1
  have h3 := List.append_cancel_left h2
  exact String.ext h3

/-- C7: the chunks of one `chunk_sections` call carry chunk indices forming
the contiguous run 0, 1, …, n−1 in output order across all sections; every
identifier is `chunk-<source>-<4-digit zero-padded index>`; and for fewer
than 10000 chunks all identifiers are pairwise distinct. -/
theorem chunk_indices_and_ids (sections : List Sec) (sid : String) (t o : Nat)
    (l : List Chunk) (h : chunk_sections sections sid t o = some l) :
    l.map (·.chunk_index) = List.range l.length
    ∧ (∀ c ∈ l, c.id = mkId sid c.chunk_index)
    ∧ (l.length < 10000 → (l.map (·.id)).Nodup) := by
  obtain ⟨hidx, hid⟩ := chunkSecGo_spec sid (4 * t / 3) (4 * o / 3) sections 0 l h
  rw [← List.range_eq_range'] at hidx
  refine ⟨hidx, hid, ?_⟩
  intro hlen
  have hmap : l.map (·.id) = (List.range l.length).map (mkId sid) := by
    rw [show l.map (·.id) = (l.map (·.chunk_index)).map (mkId sid) by
      rw [List.map_map]
      exact List.map_congr_left hid, hidx]
  rw [hmap]
  apply (List.nodup_range l.length).map_on
  intro x hx y hy hxy
  exact mkId_inj sid x y
    (lt_trans (List.mem_range.mp hx) hlen) (lt_trans (List.mem_range.mp hy) hlen) hxy

/-- Witness for C7 at a two-section input producing two chunks. -/
theorem chunk_indices_and_ids_witness :
    chunk_sections [{ chapter := "", sec := "", text := "alpha beta" },
        { chapter := "", sec := "", text := "gamma" }] "s" 1500 200
      = some [Chunk.mk "chunk-s-0000" "s" "" "" "alpha beta" 1 0,
              Chunk.mk "chunk-s-0001" "s" "" "" "gamma" 0 1]
    ∧ ([Chunk.mk "chunk-s-0000" "s" "" "" "alpha beta" 1 0,
        Chunk.mk "chunk-s-0001" "s" "" "" "gamma" 0 1].map (·.chunk_index)
        = List.range 2
      ∧ (∀ c ∈ [Chunk.mk "chunk-s-0000" "s" "" "" "alpha beta" 1 0,
            Chunk.mk "chunk-s-0001" "s" "" "" "gamma" 0 1], c.id = mkId "s" c.chunk_index)
      ∧ (([Chunk.mk "chunk-s-0000" "s" "" "" "alpha beta" 1 0,
            Chunk.mk "chunk-s-0001" "s" "" "" "gamma" 0 1].length < 10000) →
          ([Chunk.mk "chunk-s-0000" "s" "" "" "alpha beta" 1 0,
            Chunk.mk "chunk-s-0001" "s" "" "" "gamma" 0 1].map (·.id)).Nodup)) :=
  ⟨rfl, by
    have h := chunk_indices_and_ids
      [{ chapter := "", sec := "", text := "alpha beta" },
       { chapter := "", sec := "", text := "gamma" }] "s" 1500 200
      [Chunk.mk "chunk-s-0000" "s" "" "" "alpha beta" 1 0,
       Chunk.mk "chunk-s-0001" "s" "" "" "gamma" 0 1] rfl
    simpa using h⟩

theorem splitWsAcc_word :
    ∀ (w rest acc : List Char), (∀ c ∈ w, isWs c = false) →
      splitWsAcc (w ++ rest) acc = splitWsAcc rest (w.reverse ++ acc) := by
  intro w
  induction w with
  | nil => intro rest acc _; simp
  | cons c w' ih =>
    intro rest acc hw
    have hc : isWs c = false := hw c (by simp)
    have hstep : splitWsAcc (c :: (w' ++ rest)) acc = splitWsAcc (w' ++ rest) (c :: acc) := by
      simp [splitWsAcc, hc]
    show splitWsAcc (c :: (w' ++ rest)) acc = splitWsAcc rest ((c :: w').reverse ++ acc)
    rw [hstep, ih rest (c :: acc) (fun d hd => hw d (by simp [hd]))]
    simp

theorem splitWs_joinSpace :
    ∀ ws : List (List Char), (∀ w ∈ ws, w ≠ [] ∧ ∀ c ∈ w, isWs c = false) →
      splitWs (joinSpace ws) = ws := by
  intro ws
  induction ws with
  | nil => intro _; rfl
  | cons w tail ih =>
    intro hws
    obtain ⟨hwne, hwc⟩ := hws w (by simp)
    cases tail with
    | nil =>
      show splitWsAcc (joinSpace [w]) [] = [w]
      have hjw : joinSpace [w] = w ++ [] := by simp [joinSpace]
      rw [hjw, splitWsAcc_word w [] [] hwc]
      simp only [splitWsAcc, List.append_nil]
      rw [if_neg (by simp [List.isEmpty_iff, hwne])]
      simp
    | cons w2 tail2 =>
      have hj : joinSpace (w :: w2 :: tail2) = w ++ ' ' :: joinSpace (w2 :: tail2) := rfl
      show splitWsAcc (joinSpace (w :: w2 :: tail2)) [] = w :: w2 :: tail2
      have hsplit : splitWsAcc (' ' :: joinSpace (w2 :: tail2)) (w.reverse ++ [])
          = w :: splitWsAcc (joinSpace (w2 :: tail2)) [] := by
        have h1 : (w.reverse ++ []).isEmpty = false := by
          simp [List.isEmpty_iff, hwne]
        simp [splitWsAcc, show isWs ' ' = true from by decide, h1, hwne]
      rw [hj, splitWsAcc_word w (' ' :: joinSpace (w2 :: tail2)) [] hwc, hsplit]
      congr 1
      exact ih (fun u hu => hws u (by simp [hu]))

theorem splitWsAcc_words :
    ∀ (cs acc : List Char), (∀ c ∈ acc, isWs c = false) →
      ∀ w ∈ splitWsAcc cs acc, w ≠ [] ∧ ∀ c ∈ w, isWs c = false := by
  intro cs
  induction cs with
  | nil =>
    intro acc hacc w hw
    simp only [splitWsAcc] at hw
    split at hw
    · simp at hw
    · rename_i hne
      simp only [List.mem_singleton] at hw
      subst hw
      refine ⟨by simpa using hne, ?_⟩
      intro c hc
      exact hacc c (by simpa using hc)
  | cons c cs' ih =>
    intro acc hacc w hw
    simp only [splitWsAcc] at hw
    by_cases hc : isWs c
    · rw [if_pos hc] at hw
      split at hw
      · exact ih [] (by simp) w hw
      · rename_i hne
        simp only [List.mem_cons] at hw
        cases hw with
        | inl h =>
          subst h
          refine ⟨by simpa using hne, ?_⟩
          intro d hd
          exact hacc d (by simpa using hd)
        | inr h => exact ih [] (by simp) w h
    · rw [if_neg hc] at hw
      refine ih (c :: acc) ?_ w hw
      intro d hd
      rcases List.mem_cons.mp hd with h | h
      · subst h; simpa using hc
      · exact hacc d h

theorem splitWs_words (cs : List Char) :
    ∀ w ∈ splitWs cs, w ≠ [] ∧ ∀ c ∈ w, isWs c = false :=
  splitWsAcc_words cs [] (by simp)

theorem dropTrailWs_eq_self :
    ∀ cs : List Char, (∀ c, cs.getLast? = some c → isWs c = false) → dropTrailWs cs = cs := by
  intro cs
  induction cs with
  | nil => intro _; rfl
  | cons c t ih =>
    intro h
    cases t with
    | nil =>
      have hc := h c rfl
      simp [dropTrailWs, hc]
    | cons d t' =>
      have ht : dropTrailWs (d :: t') = d :: t' :=
        ih (fun x hx => h x (by rw [List.getLast?_cons_cons]; exact hx))
      have heq : dropTrailWs (c :: d :: t')
          = if (dropTrailWs (d :: t')).isEmpty ∧ isWs c then []
            else c :: dropTrailWs (d :: t') := rfl
      rw [heq, ht]
      simp

theorem stripWs_eq_self (cs : List Char)
    (h1 : ∀ c, cs.head? = some c → isWs c = false)
    (h2 : ∀ c, cs.getLast? = some c → isWs c = false) : stripWs cs = cs := by
  have hdw : cs.dropWhile isWs = cs := by
    cases cs with
    | nil => rfl
    | cons c t =>
      rw [List.dropWhile_cons, if_neg (by simp [h1 c rfl])]
  rw [stripWs, hdw]
  exact dropTrailWs_eq_self cs h2

theorem joinA_cons : ∀ n : Nat, ∃ t, joinSpace (List.replicate (n + 1) ['a']) = 'a' :: t := by
  intro n
  induction n with
  | zero => exact ⟨[], rfl⟩
  | succ m ih =>
    obtain ⟨t, ht⟩ := ih
    refine ⟨' ' :: ('a' :: t), ?_⟩
    rw [List.replicate_succ, List.replicate_succ, ← List.replicate_succ]
    have hu : joinSpace (['a'] :: List.replicate (m + 1) ['a'])
        = ['a'] ++ ' ' :: joinSpace (List.replicate (m + 1) ['a']) := by
      rw [List.replicate_succ]
      rfl
    rw [hu, ht]
    simp

theorem joinA_last : ∀ n : Nat, (joinSpace (List.replicate (n + 1) ['a'])).getLast? = some 'a' := by
  intro n
  induction n with
  | zero => rfl
  | succ m ih =>
    obtain ⟨t, ht⟩ := joinA_cons m
    rw [List.replicate_succ, List.replicate_succ, ← List.replicate_succ]
    have hu : joinSpace (['a'] :: List.replicate (m + 1) ['a'])
        = ['a'] ++ ' ' :: joinSpace (List.replicate (m + 1) ['a']) := by
      rw [List.replicate_succ]
      rfl
    rw [hu, ht]
    rw [show (['a'] : List Char) ++ ' ' :: 'a' :: t = 'a' :: ' ' :: 'a' :: t from rfl]
    rw [List.getLast?_cons_cons, List.getLast?_cons_cons]
    rw [ht] at ih
    exact ih

theorem words2600_props : ∀ w ∈ words2600, w ≠ [] ∧ ∀ c ∈ w, isWs c = false := by
  intro w hw
  rw [words2600, List.mem_replicate] at hw
  obtain ⟨-, rfl⟩ := hw
  refine ⟨by simp, ?_⟩
  intro c hc
  simp only [List.mem_singleton] at hc
  subst hc
  decide

theorem sec2600_words : splitWs (stripWs sec2600.text.data) = words2600 := by
  have hdata : sec2600.text.data = joinSpace words2600 := rfl
  have h2600 : words2600 = List.replicate (2599 + 1) ['a'] := by
    rw [words2600]
  have hhead : ∀ c, (joinSpace words2600).head? = some c → isWs c = false := by
    intro c hc
    obtain ⟨t, ht⟩ := joinA_cons 2599
    rw [h2600, ht] at hc
    simp only [List.head?_cons, Option.some.injEq] at hc
    subst hc
    decide
  have hlast : ∀ c, (joinSpace words2600).getLast? = some c → isWs c = false := by
    intro c hc
    have := joinA_last 2599
    rw [← h2600] at this
    rw [this] at hc
    injection hc with hc
    subst hc
    decide
  rw [hdata, stripWs_eq_self _ hhead hlast]
  exact splitWs_joinSpace words2600 words2600_props

theorem sec2600_len : (splitWs (stripWs sec2600.text.data)).length = 2600 := by
  rw [sec2600_words, words2600, List.length_replicate]

theorem win2600 : windowLoop 2601 2600 2000 266 0 = some [(0, 2000), (1734, 2600)] := by
  decide

theorem chunk2600 (s : Sec) (sid : String)
    (h : (splitWs (stripWs s.text.data)).length = 2600) :
    chunk_sections [s] sid 1500 200
      = some (windowChunks (splitWs (stripWs s.text.data)) sid s.chapter s.sec 0
          [(0, 2000), (1734, 2600)])
    ∧ (windowChunks (splitWs (stripWs s.text.data)) sid s.chapter s.sec 0
        [(0, 2000), (1734, 2600)]).map (fun c => (splitWs c.text.data).length)
      = [2000, 866] := by
  have hprops := splitWs_words (stripWs s.text.data)
  have hne : (stripWs s.text.data).isEmpty = false := by
    cases hs : stripWs s.text.data with
    | nil => rw [hs] at h; simp [splitWs, splitWsAcc] at h
    | cons c t => rfl
  constructor
  · have htw : (4 : Nat) * 1500 / 3 = 2000 := by norm_num
    have how : (4 : Nat) * 200 / 3 = 266 := by norm_num
    have hwin : windowLoop ((splitWs (stripWs s.text.data)).length + 1)
        (splitWs (stripWs s.text.data)).length 2000 266 0
        = some [(0, 2000), (1734, 2600)] := by
      rw [h]
      exact win2600
    have hlen : ¬ ((splitWs (stripWs s.text.data)).length ≤ 2000) := by omega
    simp only [chunk_sections, htw, how, chunkSecGo, sectionChunks, hne,
      Bool.false_eq_true, if_false, hlen, if_false, hwin]
    simp
  · have hs1 : splitWs (joinSpace (((splitWs (stripWs s.text.data)).drop 0).take 2000))
        = ((splitWs (stripWs s.text.data)).drop 0).take 2000 := by
      apply splitWs_joinSpace
      intro w hw
      exact hprops w (List.drop_subset _ _ (List.take_subset _ _ hw))
    have hs2 : splitWs (joinSpace (((splitWs (stripWs s.text.data)).drop 1734).take 866))
        = ((splitWs (stripWs s.text.data)).drop 1734).take 866 := by
      apply splitWs_joinSpace
      intro w hw
      exact hprops w (List.drop_subset _ _ (List.take_subset _ _ hw))
    simp only [windowChunks, mkChunk, List.map_cons, List.map_nil]
    rw [show ((0 : Nat), (2000 : Nat)).2 - (0, 2000).1 = 2000 from rfl,
        show ((1734 : Nat), (2600 : Nat)).2 - (1734, 2600).1 = 866 from rfl]
    rw [hs1, hs2]
    simp [List.length_take, List.length_drop, h]

/-- C4 amended: chunking a single section of exactly 2600 words with
`target_tokens=1500, overlap_tokens=200` yields exactly 2 chunks; the
second chunk is the final 866 words, i.e. its window starts at word
`2600 - 866 = 1734 = 2000 - 266`: it begins 266 (not 267) words before the
end of the first chunk, because `int(200 / 0.75) = 266`. -/
theorem chunk_2600_scenario (s : Sec) (sid : String)
    (h : (splitWs (stripWs s.text.data)).length = 2600) :
    ∃ l, chunk_sections [s] sid 1500 200 = some l
      ∧ l.length = 2
      ∧ l.map (fun c => (splitWs c.text.data).length) = [2000, 866]
      ∧ 2600 - 866 = 2000 - 266 := by
  obtain ⟨h1, h2⟩ := chunk2600 s sid h
  refine ⟨_, h1, ?_, h2, by norm_num⟩
  have hlen := congrArg List.length h2
  simpa using hlen

/-- C4 counterexample: on a concrete 2600-word section the second chunk
holds 866 words (window start 1734), not the 867 words (window start
1733) the claim asserts. -/
theorem chunk_2600_counterexample :
    ¬ ∃ l, chunk_sections [sec2600] "abc" 1500 200 = some l
        ∧ l.map (fun c => (splitWs c.text.data).length) = [2000, 867] := by
  obtain ⟨h1, h2⟩ := chunk2600 sec2600 "abc" sec2600_len
  rintro ⟨l, hl, hm⟩
  rw [h1] at hl
  injection hl with hl
  rw [← hl, h2] at hm
  simp at hm

/-- Witness for C4's amended statement at the concrete 2600-word section. -/
theorem chunk_2600_scenario_witness :
    (splitWs (stripWs sec2600.text.data)).length = 2600
    ∧ ∃ l, chunk_sections [sec2600] "src" 1500 200 = some l
        ∧ l.length = 2
        ∧ l.map (fun c => (splitWs c.text.data).length) = [2000, 866]
        ∧ 2600 - 866 = 2000 - 266 :=
  ⟨sec2600_len, chunk_2600_scenario sec2600 "src" sec2600_len⟩

theorem insertStable_perm (le : α → α → Bool) (x : α) :
    ∀ l, (insertStable le x l).Perm (x :: l) := by
  intro l
  induction l with
  | nil => exact List.Perm.refl _
  | cons y ys ih =>
    simp only [insertStable]
    split
    · exact (List.Perm.cons y ih).trans (List.Perm.swap x y ys)
    · exact List.Perm.refl _

theorem sortStable_perm_aux (le : α → α → Bool) :
    ∀ (l acc : List α), (l.foldl (fun acc x => insertStable le x acc) acc).Perm (acc ++ l) := by
  intro l
  induction l with
  | nil => intro acc; simp
  | cons x xs ih =>
    intro acc
    simp only [List.foldl_cons]
    refine (ih (insertStable le x acc)).trans ?_
    refine ((insertStable_perm le x acc).append_right xs).trans ?_
    exact List.perm_middle.symm

theorem sortStable_perm (le : α → α → Bool) (l : List α) : (sortStable le l).Perm l := by
  have h := sortStable_perm_aux le l []
  simpa [sortStable] using h

theorem scoredOf_flag (simFn : List ℚ → ℚ) (chunks : List RChunk) (oids : List String) :
    ∀ e ∈ scoredOf simFn chunks oids, e.2.1 = isOrigB e.2.2.id oids := by
  intro e he
  rw [scoredOf, List.mem_filterMap] at he
  obtain ⟨c, hc, hfc⟩ := he
  cases hemb : c.embedding with
  | none => rw [hemb] at hfc; simp at hfc
  | some v =>
    rw [hemb] at hfc
    by_cases hv : v.isEmpty
    · simp [hv] at hfc
    · simp only [hv, Bool.false_eq_true, if_false, Option.some.injEq] at hfc
      rw [← hfc]

theorem scoredOf_mem (simFn : List ℚ → ℚ) {chunks : List RChunk} {c : RChunk}
    (hc : c ∈ chunks) (oids : List String) (he : hasEmb c = true) :
    ∃ s, (s, isOrigB c.id oids, c) ∈ scoredOf simFn chunks oids := by
  cases hemb : c.embedding with
  | none => rw [hasEmb, hemb] at he; simp at he
  | some v =>
    have hv : v.isEmpty = false := by
      rw [hasEmb, hemb] at he
      simpa using he
    refine ⟨simFn v, ?_⟩
    rw [scoredOf, List.mem_filterMap]
    refine ⟨c, hc, ?_⟩
    rw [hemb]
    simp [hv]

theorem addOrigs_prefix :
    ∀ (l : List (ℚ × Bool × RChunk)) (res : List RChunk) (seen : List String),
      ∃ ext, (addOrigs l res seen).1 = res ++ ext := by
  intro l
  induction l with
  | nil => intro res seen; exact ⟨[], by simp [addOrigs]⟩
  | cons e rest ih =>
    intro res seen
    obtain ⟨s, o, c⟩ := e
    simp only [addOrigs]
    split
    · obtain ⟨ext, hext⟩ := ih (res ++ [c]) (c.id :: seen)
      exact ⟨c :: ext, by rw [hext]; simp⟩
    · exact ih res seen

theorem addOrigs_seen_sub :
    ∀ (l : List (ℚ × Bool × RChunk)) (res : List RChunk) (seen : List String),
      ∀ i ∈ seen, i ∈ (addOrigs l res seen).2 := by
  intro l
  induction l with
  | nil => intro res seen i hi; simpa [addOrigs] using hi
  | cons e rest ih =>
    intro res seen i hi
    obtain ⟨s, o, c⟩ := e
    simp only [addOrigs]
    split
    · exact ih (res ++ [c]) (c.id :: seen) i (by simp [hi])
    · exact ih res seen i hi

theorem addOrigs_seen_covers :
    ∀ (l : List (ℚ × Bool × RChunk)) (res : List RChunk) (seen : List String),
      ∀ e ∈ l, e.2.1 = true → e.2.2.id ∈ (addOrigs l res seen).2 := by
  intro l
  induction l with
  | nil => intro res seen e he; simp at he
  | cons f rest ih =>
    intro res seen e he hflag
    obtain ⟨s, o, c⟩ := f
    rcases List.mem_cons.mp he with rfl | hrest
    · simp only at hflag
      subst hflag
      simp only [addOrigs]
      by_cases hmem : c.id ∈ seen
      · rw [if_neg (by simp [hmem])]
        exact addOrigs_seen_sub rest res seen c.id hmem
      · rw [if_pos (by simp [hmem])]
        exact addOrigs_seen_sub rest (res ++ [c]) (c.id :: seen) c.id (by simp)
    · simp only [addOrigs]
      split
      · exact ih (res ++ [c]) (c.id :: seen) e hrest hflag
      · exact ih res seen e hrest hflag

theorem addOrigs_covers :
    ∀ (l : List (ℚ × Bool × RChunk)) (res : List RChunk) (seen : List String),
      (∀ i ∈ seen, ∃ c ∈ res, c.id = i) →
      ∀ e ∈ l, e.2.1 = true → ∃ c ∈ (addOrigs l res seen).1, c.id = e.2.2.id := by
  intro l
  induction l with
  | nil => intro res seen _ e he; simp at he
  | cons f rest ih =>
    intro res seen hseen e he hflag
    obtain ⟨s, o, c⟩ := f
    rcases List.mem_cons.mp he with rfl | hrest
    · simp only at hflag
      subst hflag
      simp only [addOrigs]
      by_cases hmem : c.id ∈ seen
      · rw [if_neg (by simp [hmem])]
        obtain ⟨c', hc', hid⟩ := hseen c.id hmem
        obtain ⟨ext, hext⟩ := addOrigs_prefix rest res seen
        exact ⟨c', by rw [hext]; exact List.mem_append_left ext hc', hid⟩
      · rw [if_pos (by simp [hmem])]
        obtain ⟨ext, hext⟩ := addOrigs_prefix rest (res ++ [c]) (c.id :: seen)
        refine ⟨c, ?_, rfl⟩
        rw [hext]
        exact List.mem_append_left ext (by simp)
    · simp only [addOrigs]
      split
      · rename_i hcond
        refine ih (res ++ [c]) (c.id :: seen) ?_ e hrest hflag
        intro i hi
        rcases List.mem_cons.mp hi with rfl | hiseen
        · exact ⟨c, by simp, rfl⟩
        · obtain ⟨c', hc', hid⟩ := hseen i hiseen
          exact ⟨c', List.mem_append_left _ hc', hid⟩
      · exact ih res seen hseen e hrest hflag

theorem addOrigs_allP (P : RChunk → Prop) :
    ∀ (l : List (ℚ × Bool × RChunk)) (res : List RChunk) (seen : List String),
      (∀ c ∈ res, P c) → (∀ e ∈ l, e.2.1 = true → P e.2.2) →
      ∀ x ∈ (addOrigs l res seen).1, P x := by
  intro l
  induction l with
  | nil => intro res seen hres _ x hx; exact hres x (by simpa [addOrigs] using hx)
  | cons f rest ih =>
    intro res seen hres hl x hx
    obtain ⟨s0, o0, c0⟩ := f
    simp only [addOrigs] at hx
    by_cases hcond : o0 = true ∧ c0.id ∉ seen
    · rw [if_pos hcond] at hx
      refine ih (res ++ [c0]) (c0.id :: seen) ?_ (fun e he hf => hl e (by simp [he]) hf) x hx
      intro y hy
      rcases List.mem_append.mp hy with hcase | hcase
      · exact hres y hcase
      · have hyc : y = c0 := by simpa using hcase
        subst hyc
        exact hl (s0, o0, y) (by simp) hcond.1
    · rw [if_neg hcond] at hx
      exact ih res seen hres (fun e he hf => hl e (by simp [he]) hf) x hx

theorem addOrigs_inv :
    ∀ (l : List (ℚ × Bool × RChunk)) (res : List RChunk) (seen : List String),
      ((res.map (·.id)).Nodup ∧ ∀ i, i ∈ seen ↔ i ∈ res.map (·.id)) →
      ((addOrigs l res seen).1.map (·.id)).Nodup
      ∧ ∀ i, i ∈ (addOrigs l res seen).2 ↔ i ∈ (addOrigs l res seen).1.map (·.id) := by
  intro l
  induction l with
  | nil => intro res seen h; simpa [addOrigs] using h
  | cons f rest ih =>
    intro res seen h
    obtain ⟨s, o, c⟩ := f
    simp only [addOrigs]
    split
    · rename_i hcond
      refine ih (res ++ [c]) (c.id :: seen) ⟨?_, ?_⟩
      · rw [List.map_append]
        simp only [List.map_cons, List.map_nil]
        rw [List.nodup_append]
        refine ⟨h.1, by simp, ?_⟩
        intro x hx
        simp only [List.mem_singleton]
        intro hxc
        subst hxc
        exact hcond.2 ((h.2 c.id).mpr hx)
      · intro i
        constructor
        · intro hi
          rcases List.mem_cons.mp hi with rfl | hi2
          · simp
          · rw [List.map_append]
            exact List.mem_append_left _ ((h.2 i).mp hi2)
        · intro hi
          rw [List.map_append] at hi
          rcases List.mem_append.mp hi with h1 | h2
          · exact List.mem_cons_of_mem _ ((h.2 i).mpr h1)
          · simp only [List.map_cons, List.map_nil, List.mem_singleton] at h2
            subst h2
            simp
    · exact ih res seen h

theorem addOrigs_len :
    ∀ (l : List (ℚ × Bool × RChunk)) (res : List RChunk) (seen : List String),
      (addOrigs l res seen).1.length ≤ res.length + l.countP (fun e => e.2.1) := by
  intro l
  induction l with
  | nil => intro res seen; simp [addOrigs]
  | cons f rest ih =>
    intro res seen
    obtain ⟨s, o, c⟩ := f
    simp only [addOrigs]
    split
    · rename_i hcond
      have hb := ih (res ++ [c]) (c.id :: seen)
      rw [List.countP_cons]
      simp only [List.length_append, List.length_singleton] at hb
      have ho : o = true := by simpa using hcond.1
      simp [ho]
      omega
    · have hb := ih res seen
      rw [List.countP_cons]
      omega

theorem fillTop_prefix :
    ∀ (l : List (ℚ × Bool × RChunk)) (res : List RChunk) (seen : List String) (k : Nat),
      ∃ ext, fillTop l res seen k = res ++ ext
        ∧ ∀ c ∈ ext, c.id ∉ seen ∧ ∃ e ∈ l, e.2.2 = c := by
  intro l
  induction l with
  | nil => intro res seen k; exact ⟨[], by simp [fillTop], by simp⟩
  | cons f rest ih =>
    intro res seen k
    obtain ⟨s0, o0, c0⟩ := f
    simp only [fillTop]
    by_cases hfull : k ≤ res.length
    · rw [if_pos hfull]
      exact ⟨[], by simp, by simp⟩
    · rw [if_neg hfull]
      by_cases hmem : c0.id ∉ seen
      · rw [if_pos hmem]
        obtain ⟨ext, hext, hprops⟩ := ih (res ++ [c0]) (c0.id :: seen) k
        refine ⟨c0 :: ext, by rw [hext]; simp, ?_⟩
        intro c hc
        rcases List.mem_cons.mp hc with rfl | hc2
        · exact ⟨hmem, ⟨(s0, o0, c), by simp, rfl⟩⟩
        · obtain ⟨hnotseen, e, he, heq⟩ := hprops c hc2
          refine ⟨fun hcs => hnotseen (by simp [hcs]), e, by simp [he], heq⟩
      · rw [if_neg hmem]
        obtain ⟨ext, hext, hprops⟩ := ih res seen k
        refine ⟨ext, hext, ?_⟩
        intro c hc
        obtain ⟨hnotseen, e, he, heq⟩ := hprops c hc
        exact ⟨hnotseen, e, by simp [he], heq⟩

theorem fillTop_inv :
    ∀ (l : List (ℚ × Bool × RChunk)) (res : List RChunk) (seen : List String) (k : Nat),
      ((res.map (·.id)).Nodup ∧ ∀ i, i ∈ seen ↔ i ∈ res.map (·.id)) →
      ((fillTop l res seen k).map (·.id)).Nodup := by
  intro l
  induction l with
  | nil => intro res seen k h; simpa [fillTop] using h.1
  | cons f rest ih =>
    intro res seen k h
    obtain ⟨s0, o0, c0⟩ := f
    simp only [fillTop]
    by_cases hfull : k ≤ res.length
    · rw [if_pos hfull]; exact h.1
    · rw [if_neg hfull]
      by_cases hmem : c0.id ∉ seen
      · rw [if_pos hmem]
        refine ih (res ++ [c0]) (c0.id :: seen) k ⟨?_, ?_⟩
        · rw [List.map_append]
          simp only [List.map_cons, List.map_nil]
          rw [List.nodup_append]
          refine ⟨h.1, by simp, ?_⟩
          intro x hx
          simp only [List.mem_singleton]
          intro hxc
          subst hxc
          exact hmem ((h.2 c0.id).mpr hx)
        · intro i
          constructor
          · intro hi
            rcases List.mem_cons.mp hi with rfl | hi2
            · simp
            · rw [List.map_append]
              exact List.mem_append_left _ ((h.2 i).mp hi2)
          · intro hi
            rw [List.map_append] at hi
            rcases List.mem_append.mp hi with h1 | h2
            · exact List.mem_cons_of_mem _ ((h.2 i).mpr h1)
            · simp only [List.map_cons, List.map_nil, List.mem_singleton] at h2
              subst h2
              simp
      · rw [if_neg hmem]
        exact ih res seen k h

theorem fillTop_len :
    ∀ (l : List (ℚ × Bool × RChunk)) (res : List RChunk) (seen : List String) (k : Nat),
      (fillTop l res seen k).length ≤ max k res.length := by
  intro l
  induction l with
  | nil => intro res seen k; simp [fillTop]
  | cons f rest ih =>
    intro res seen k
    obtain ⟨s0, o0, c0⟩ := f
    simp only [fillTop]
    by_cases hfull : k ≤ res.length
    · rw [if_pos hfull]; simp
    · rw [if_neg hfull]
      by_cases hmem : c0.id ∉ seen
      · rw [if_pos hmem]
        have hb := ih (res ++ [c0]) (c0.id :: seen) k
        simp only [List.length_append, List.length_singleton] at hb
        omega
      · rw [if_neg hmem]
        exact ih res seen k

theorem retrieve_core (sorted : List (ℚ × Bool × RChunk)) (top_k : Nat) (oids : List String)
    (hflag : ∀ e ∈ sorted, e.2.1 = isOrigB e.2.2.id oids) :
    (∀ e ∈ sorted, e.2.1 = true →
        ∃ c' ∈ fillTop sorted (addOrigs sorted [] []).1 (addOrigs sorted [] []).2 top_k,
          c'.id = e.2.2.id)
    ∧ ∃ n, (∀ c ∈ (fillTop sorted (addOrigs sorted [] []).1
            (addOrigs sorted [] []).2 top_k).take n, c.id ∈ oids)
        ∧ ∀ c ∈ (fillTop sorted (addOrigs sorted [] []).1
            (addOrigs sorted [] []).2 top_k).drop n, c.id ∉ oids := by
  obtain ⟨ext, hext, hextprops⟩ :=
    fillTop_prefix sorted (addOrigs sorted [] []).1 (addOrigs sorted [] []).2 top_k
  constructor
  · intro e he hf
    obtain ⟨c', hc', hid⟩ := addOrigs_covers sorted [] [] (by simp) e he hf
    exact ⟨c', by rw [hext]; exact List.mem_append_left _ hc', hid⟩
  · refine ⟨(addOrigs sorted [] []).1.length, ?_, ?_⟩
    · rw [hext, List.take_left]
      intro c hc
      refine addOrigs_allP (fun c => c.id ∈ oids) sorted [] [] (by simp) ?_ c hc
      intro e he hf
      have hfe := hflag e he
      rw [hfe] at hf
      simpa [isOrigB] using hf
    · rw [hext, List.drop_left]
      intro c hc
      obtain ⟨hnotseen, e, he, heq⟩ := hextprops c hc
      intro hin
      have hf : e.2.1 = true := by
        rw [hflag e he, heq]
        simpa [isOrigB] using hin
      exact hnotseen (by rw [← heq]; exact addOrigs_seen_covers sorted [] [] e he hf)

/-- C1: every chunk whose id is in `original_chunk_ids` and whose embedding
is present is represented in the retrieval result, and all original chunks
precede every non-original chunk, for any similarity scores and any
`top_k` (so also when originals score lowest or outnumber `top_k`). -/
theorem retrieve_originals_always_included (simFn : List ℚ → ℚ) (all_chunks : List RChunk)
    (top_k : Nat) (oids : List String) :
    (∀ c ∈ all_chunks, hasEmb c = true → c.id ∈ oids →
        ∃ c' ∈ retrieve_relevant_chunks simFn all_chunks top_k oids, c'.id = c.id)
    ∧ ∃ n, (∀ c ∈ (retrieve_relevant_chunks simFn all_chunks top_k oids).take n, c.id ∈ oids)
        ∧ ∀ c ∈ (retrieve_relevant_chunks simFn all_chunks top_k oids).drop n,
            c.id ∉ oids := by
  have hperm : (sortScored (scoredOf simFn all_chunks oids)).Perm
      (scoredOf simFn all_chunks oids) := sortStable_perm scoreLe _
  have hflag : ∀ e ∈ sortScored (scoredOf simFn all_chunks oids),
      e.2.1 = isOrigB e.2.2.id oids := by
    intro e he
    exact scoredOf_flag simFn all_chunks oids e (hperm.mem_iff.mp he)
  obtain ⟨hcov, hsplit⟩ :=
    retrieve_core (sortScored (scoredOf simFn all_chunks oids)) top_k oids hflag
  constructor
  · intro c hc hemb hid
    obtain ⟨s, hmem⟩ := scoredOf_mem simFn hc oids hemb
    have hmem2 := hperm.mem_iff.mpr hmem
    exact hcov (s, isOrigB c.id oids, c) hmem2 (by simpa [isOrigB] using hid)
  · exact hsplit

/-- Witness for C1 with two embedded chunks, both original, and `top_k = 1`
(originals outnumber the cap; the score function is constant, so the
original is not favoured by score). -/
theorem retrieve_originals_always_included_witness :
    (⟨"a", some [(1 : ℚ)]⟩ : RChunk) ∈ [(⟨"a", some [(1 : ℚ)]⟩ : RChunk), ⟨"b", some [1]⟩]
    ∧ hasEmb ⟨"a", some [(1 : ℚ)]⟩ = true
    ∧ "a" ∈ ["a", "b"]
    ∧ (∃ c' ∈ retrieve_relevant_chunks (fun _ => 0)
          [(⟨"a", some [(1 : ℚ)]⟩ : RChunk), ⟨"b", some [1]⟩] 1 ["a", "b"], c'.id = "a")
    ∧ ∃ n, (∀ c ∈ (retrieve_relevant_chunks (fun _ => 0)
            [(⟨"a", some [(1 : ℚ)]⟩ : RChunk), ⟨"b", some [1]⟩] 1 ["a", "b"]).take n,
          c.id ∈ ["a", "b"])
        ∧ ∀ c ∈ (retrieve_relevant_chunks (fun _ => 0)
            [(⟨"a", some [(1 : ℚ)]⟩ : RChunk), ⟨"b", some [1]⟩] 1 ["a", "b"]).drop n,
          c.id ∉ ["a", "b"] :=
  ⟨by simp, rfl, by simp,
    (retrieve_originals_always_included (fun _ => 0)
      [⟨"a", some [(1 : ℚ)]⟩, ⟨"b", some [1]⟩] 1 ["a", "b"]).1
      ⟨"a", some [(1 : ℚ)]⟩ (by simp) rfl (by simp),
    (retrieve_originals_always_included (fun _ => 0)
      [⟨"a", some [(1 : ℚ)]⟩, ⟨"b", some [1]⟩] 1 ["a", "b"]).2⟩

/-- C6 amended: the retrieval result never contains two chunks with the
same identifier, and its length is at most the maximum of `top_k` and the
number of scored original entries (the `top_k` cap is exceeded exactly
when the originals alone exceed it — they are never dropped). -/
theorem retrieve_nodup_softcap (simFn : List ℚ → ℚ) (all_chunks : List RChunk)
    (top_k : Nat) (oids : List String) :
    ((retrieve_relevant_chunks simFn all_chunks top_k oids).map (·.id)).Nodup
    ∧ (retrieve_relevant_chunks simFn all_chunks top_k oids).length
      ≤ max top_k ((scoredOf simFn all_chunks oids).countP (fun e => e.2.1)) := by
  constructor
  · show ((fillTop (sortScored (scoredOf simFn all_chunks oids))
        (addOrigs (sortScored (scoredOf simFn all_chunks oids)) [] []).1
        (addOrigs (sortScored (scoredOf simFn all_chunks oids)) [] []).2 top_k).map
          (·.id)).Nodup
    exact fillTop_inv _ _ _ top_k
      (addOrigs_inv (sortScored (scoredOf simFn all_chunks oids)) [] [] ⟨by simp, by simp⟩)
  · show (fillTop (sortScored (scoredOf simFn all_chunks oids))
        (addOrigs (sortScored (scoredOf simFn all_chunks oids)) [] []).1
        (addOrigs (sortScored (scoredOf simFn all_chunks oids)) [] []).2 top_k).length ≤ _
    have h1 := fillTop_len (sortScored (scoredOf simFn all_chunks oids))
      (addOrigs (sortScored (scoredOf simFn all_chunks oids)) [] []).1
      (addOrigs (sortScored (scoredOf simFn all_chunks oids)) [] []).2 top_k
    have h2 := addOrigs_len (sortScored (scoredOf simFn all_chunks oids)) [] []
    have h3 : (sortScored (scoredOf simFn all_chunks oids)).countP (fun e => e.2.1)
        = (scoredOf simFn all_chunks oids).countP (fun e => e.2.1) :=
      (sortStable_perm scoreLe (scoredOf simFn all_chunks oids)).countP_eq _
    simp only [List.length_nil] at h2
    omega

/-- C6 counterexample: with `top_k = 1` and two embedded original chunks,
the result has length 2, exceeding `top_k`. -/
theorem retrieve_topk_exceeded_counterexample :
    ¬ ((retrieve_relevant_chunks (fun _ => 0)
        [(⟨"a", some [(1 : ℚ)]⟩ : RChunk), ⟨"b", some [1]⟩] 1 ["a", "b"]).length ≤ 1) := by
  norm_num [retrieve_relevant_chunks, scoredOf, sortScored, sortStable, insertStable,
    scoreLe, addOrigs, fillTop, isOrigB]
  decide
